import Mathlib

/-!
# Verification of the floated-binding optimization pass

A shallow embedding of the core of `lib.js`, a source-to-source pass that
floats pure local bindings and pure call expressions to the outermost lexical
scope where their free variables remain visible, wrapping each hoisted
computation in a memoize-once thunk.

The embedding models:
* the JavaScript AST fragment the analyses walk (`Expr`, `Stmt`);
* the purity analyses `exprContainsNullaryCall` / `isPureEnoughInit` and the
  frame-sensitivity walk `containsFrameSensitiveThings`;
* the free-variable collector `freeVarsOfNode` / `freeVarsOfDecl`;
* the scope/binding facility supplied by the host (a scope chain with
  own-binding, global and parent lookups) and the outward walk
  `outermostScopeWith`;
* the name allocator `sanitizeBase` / `makeUniqueFbName`;
* the hoist-site insertion `ensureArrowBlock` / `insertAfterPrologueAndImports`;
* the runtime helper's self-rebinding accessor as a two-state thunk;
* the transform driver's two visitor bodies as step functions
  (`callStep`, `declStep`).

Modelling conventions, mirroring the host (Babel) semantics the source relies
on:
* identifier occurrences in non-reference positions (declared names,
  parameters, non-computed member properties, object keys, function names)
  are plain strings, so every `Expr.ident` node in a tree stands for an
  identifier in a read (reference) position — exactly the occurrences for
  which the source's `isReferencedIdentifier()` test returns true;
* `path.traverse` visits the descendants of a node, never the node itself,
  so the analyses built on it examine proper subterms only;
* a scope chain is a list of scopes, innermost first; the parent of the
  scope at index `i` is the scope at index `i + 1`;
* `hasGlobal` is uniform along a chain (the host collects globals at the
  program scope), so it is modelled as one finite list of names; the host's
  built-in globals consulted by `hasBinding` are folded into the same list.
-/

namespace FloatedBinding

/-- Binding kinds as reported by the host scope provider. -/
inductive BKind where
  | param
  | varB
  | letB
  | constB
  | hoisted
  | moduleB
  | unknown
deriving DecidableEq, Repr

/-- Scope kinds: function scope, program (top-level unit) scope, other block scope. -/
inductive SKind where
  | fn
  | prog
  | block
deriving DecidableEq, Repr

/-- Declaration keywords. -/
inductive DKind where
  | constD
  | letD
  | varD
deriving DecidableEq, Repr

mutual
/-- Expressions of the modelled JavaScript AST fragment.  Arrow functions with
an expression body (`arrowE`), arrow functions with a block body (`arrowB`)
and ordinary function expressions (`funcE`) are distinguished because the
spec distinguishes arrow-like lexical-context functions from ordinary ones. -/
inductive Expr where
  | ident (name : String)
  | lit (isStr : Bool) (value : String)
  | call (callee : Expr) (args : List Expr)
  | arrowE (params : List String) (body : Expr)
  | arrowB (params : List String) (body : List Stmt)
  | funcE (params : List String) (body : List Stmt)
  | thisE
  | superE
  | newTarget
  | member (obj : Expr) (prop : String)
  | memberC (obj : Expr) (prop : Expr)
  | bin (lhs rhs : Expr)

/-- Statements of the modelled fragment.  A variable declaration is modelled
with a single declarator (the visitor of the source processes declarators
one at a time; the declarator and its declaration statement are one node
here). -/
inductive Stmt where
  | varDecl (kind : DKind) (id : String) (init : Option Expr)
  | exprStmt (e : Expr)
  | ret (e : Option Expr)
  | importD
  | funcDecl (name : String) (params : List String) (body : List Stmt)
  | block (body : List Stmt)
end

/-- `isNullaryCall`: a call expression with zero arguments. -/
def isNullaryCall : Expr → Bool
  | .call _ [] => true
  | _ => false

mutual
/-- Recursive walk of `exprContainsNullaryCall`: does the subtree rooted at
this expression (root included) contain a call expression with zero
arguments?  The source walks every child value that looks like a node, so
the walk descends into nested function bodies as well. -/
def exprHasNullary : Expr → Bool
  | .ident _ => false
  | .lit _ _ => false
  | .call c args => isNullaryCall (.call c args) || exprHasNullary c || exprListHasNullary args
  | .arrowE _ b => exprHasNullary b
  | .arrowB _ b => stmtListHasNullary b
  | .funcE _ b => stmtListHasNullary b
  | .thisE => false
  | .superE => false
  | .newTarget => false
  | .member o _ => exprHasNullary o
  | .memberC o p => exprHasNullary o || exprHasNullary p
  | .bin l r => exprHasNullary l || exprHasNullary r

def stmtHasNullary : Stmt → Bool
  | .varDecl _ _ none => false
  | .varDecl _ _ (some e) => exprHasNullary e
  | .exprStmt e => exprHasNullary e
  | .ret none => false
  | .ret (some e) => exprHasNullary e
  | .importD => false
  | .funcDecl _ _ b => stmtListHasNullary b
  | .block b => stmtListHasNullary b

def exprListHasNullary : List Expr → Bool
  | [] => false
  | e :: es => exprHasNullary e || exprListHasNullary es

def stmtListHasNullary : List Stmt → Bool
  | [] => false
  | s :: ss => stmtHasNullary s || stmtListHasNullary ss
end

/-- `exprContainsNullaryCall(n)`: the recursive walk of the source, root
included. -/
def exprContainsNullaryCall (n : Expr) : Bool := exprHasNullary n

/-- `isPureEnoughInit(node)`: rejects exactly when the subtree contains a
nullary call (the source's null-node case is handled by the callers'
`Option` handling here). -/
def isPureEnoughInit (node : Expr) : Bool := !exprContainsNullaryCall node

/-- A node that is frame-sensitive by itself: the invocation receiver
(`this`), a super-invocation reference, constructor metadata (`new.target`),
or the identifier `arguments` in a reference position (in this model every
`Expr.ident` stands for a reference-position occurrence). -/
def isFrameSensitiveNode : Expr → Bool
  | .thisE => true
  | .superE => true
  | .newTarget => true
  | .ident n => n == "arguments"
  | _ => false

mutual
/-- Does the subtree rooted here (root included) contain a frame-sensitive
node?  The underlying host traversal visits every descendant, with no reset
at nested function boundaries of either kind. -/
def fsE : Expr → Bool
  | .ident n => isFrameSensitiveNode (.ident n)
  | .lit _ _ => false
  | .call c args => fsE c || fsListE args
  | .arrowE _ b => fsE b
  | .arrowB _ b => fsListS b
  | .funcE _ b => fsListS b
  | .thisE => true
  | .superE => true
  | .newTarget => true
  | .member o _ => fsE o
  | .memberC o p => fsE o || fsE p
  | .bin l r => fsE l || fsE r

def fsS : Stmt → Bool
  | .varDecl _ _ none => false
  | .varDecl _ _ (some e) => fsE e
  | .exprStmt e => fsE e
  | .ret none => false
  | .ret (some e) => fsE e
  | .importD => false
  | .funcDecl _ _ b => fsListS b
  | .block b => fsListS b

def fsListE : List Expr → Bool
  | [] => false
  | e :: es => fsE e || fsListE es

def fsListS : List Stmt → Bool
  | [] => false
  | s :: ss => fsS s || fsListS ss
end

/-- `containsFrameSensitiveThings(anyPath)`: the source traverses the
descendants of the given path (the node itself is not visited by
`path.traverse`), flagging `this`, referenced `arguments`, `super` and
`new.target` anywhere in the subtree. -/
def containsFrameSensitiveThings : Expr → Bool
  | .ident _ => false
  | .lit _ _ => false
  | .call c args => fsE c || fsListE args
  | .arrowE _ b => fsE b
  | .arrowB _ b => fsListS b
  | .funcE _ b => fsListS b
  | .thisE => false
  | .superE => false
  | .newTarget => false
  | .member o _ => fsE o
  | .memberC o p => fsE o || fsE p
  | .bin l r => fsE l || fsE r

mutual
/-- All reference-position identifier names in the subtree rooted here,
root included, in traversal order. -/
def identsE : Expr → List String
  | .ident n => [n]
  | .lit _ _ => []
  | .call c args => identsE c ++ identsLE args
  | .arrowE _ b => identsE b
  | .arrowB _ b => identsLS b
  | .funcE _ b => identsLS b
  | .thisE => []
  | .superE => []
  | .newTarget => []
  | .member o _ => identsE o
  | .memberC o p => identsE o ++ identsE p
  | .bin l r => identsE l ++ identsE r

def identsS : Stmt → List String
  | .varDecl _ _ none => []
  | .varDecl _ _ (some e) => identsE e
  | .exprStmt e => identsE e
  | .ret none => []
  | .ret (some e) => identsE e
  | .importD => []
  | .funcDecl _ _ b => identsLS b
  | .block b => identsLS b

def identsLE : List Expr → List String
  | [] => []
  | e :: es => identsE e ++ identsLE es

def identsLS : List Stmt → List String
  | [] => []
  | s :: ss => identsS s ++ identsLS ss
end

/-- Deduplication with kept first occurrences, mirroring insertion into a
JavaScript `Set` in traversal order. -/
def dedupAux (seen : List String) : List String → List String
  | [] => []
  | x :: xs => if seen.contains x then dedupAux seen xs else x :: dedupAux (x :: seen) xs

def dedupKeepFirst (l : List String) : List String := dedupAux [] l

/-- `freeVarsOfNode(nodePath)`: collects every identifier in a reference
position among the proper descendants of the node (the traversal never
visits the node itself), as a duplicate-free list in first-visit order. -/
def freeVarsOfNode : Expr → List String
  | .ident _ => []
  | .lit _ _ => []
  | .call c args => dedupKeepFirst (identsE c ++ identsLE args)
  | .arrowE _ b => dedupKeepFirst (identsE b)
  | .arrowB _ b => dedupKeepFirst (identsLS b)
  | .funcE _ b => dedupKeepFirst (identsLS b)
  | .thisE => []
  | .superE => []
  | .newTarget => []
  | .member o _ => dedupKeepFirst (identsE o)
  | .memberC o p => dedupKeepFirst (identsE o ++ identsE p)
  | .bin l r => dedupKeepFirst (identsE l ++ identsE r)

/-- `freeVarsOfDecl(declPath)`: the free variables of the declarator's
initializer.  The declared name is deliberately not excluded. -/
def freeVarsOfDecl (init : Expr) : List String := freeVarsOfNode init

mutual
/-- The expression together with every expression occurring anywhere inside
it (descending through nested statements as well). -/
def allExprsE : Expr → List Expr
  | .ident n => [.ident n]
  | .lit b v => [.lit b v]
  | .call c args => .call c args :: (allExprsE c ++ allExprsLE args)
  | .arrowE ps b => .arrowE ps b :: allExprsE b
  | .arrowB ps b => .arrowB ps b :: allExprsLS b
  | .funcE ps b => .funcE ps b :: allExprsLS b
  | .thisE => [.thisE]
  | .superE => [.superE]
  | .newTarget => [.newTarget]
  | .member o p => .member o p :: allExprsE o
  | .memberC o p => .memberC o p :: (allExprsE o ++ allExprsE p)
  | .bin l r => .bin l r :: (allExprsE l ++ allExprsE r)

def allExprsS : Stmt → List Expr
  | .varDecl _ _ none => []
  | .varDecl _ _ (some e) => allExprsE e
  | .exprStmt e => allExprsE e
  | .ret none => []
  | .ret (some e) => allExprsE e
  | .importD => []
  | .funcDecl _ _ b => allExprsLS b
  | .block b => allExprsLS b

def allExprsLE : List Expr → List Expr
  | [] => []
  | e :: es => allExprsE e ++ allExprsLE es

def allExprsLS : List Stmt → List Expr
  | [] => []
  | s :: ss => allExprsS s ++ allExprsLS ss
end

mutual
/-- Every statement occurring anywhere inside the expression. -/
def allStmtsE : Expr → List Stmt
  | .ident _ => []
  | .lit _ _ => []
  | .call c args => allStmtsE c ++ allStmtsLE args
  | .arrowE _ b => allStmtsE b
  | .arrowB _ b => allStmtsLS b
  | .funcE _ b => allStmtsLS b
  | .thisE => []
  | .superE => []
  | .newTarget => []
  | .member o _ => allStmtsE o
  | .memberC o p => allStmtsE o ++ allStmtsE p
  | .bin l r => allStmtsE l ++ allStmtsE r

def allStmtsS : Stmt → List Stmt
  | .varDecl k i none => [.varDecl k i none]
  | .varDecl k i (some e) => .varDecl k i (some e) :: allStmtsE e
  | .exprStmt e => .exprStmt e :: allStmtsE e
  | .ret none => [.ret none]
  | .ret (some e) => .ret (some e) :: allStmtsE e
  | .importD => [.importD]
  | .funcDecl n ps b => .funcDecl n ps b :: allStmtsLS b
  | .block b => .block b :: allStmtsLS b

def allStmtsLE : List Expr → List Stmt
  | [] => []
  | e :: es => allStmtsE e ++ allStmtsLE es

def allStmtsLS : List Stmt → List Stmt
  | [] => []
  | s :: ss => allStmtsS s ++ allStmtsLS ss
end

/-! ## The scope/binding facility

The host supplies, for every node, a chain of scopes from the node's own
scope outward to the program scope.  A scope records its kind, its own
bindings (name and binding kind) and, for function scopes, the function's
identifier-valued parameters. -/

/-- One lexical scope as exposed by the host provider. -/
structure Scope where
  kind : SKind
  own : List (String × BKind)
  params : List String

/-- The scope chain visible from a use-site (index 0 = the use-site's scope,
index `i + 1` = parent of index `i`), together with the program-level
ambient/global names. -/
structure Env where
  chain : List Scope
  globals : List String

/-- The names bound directly in a scope. -/
def Scope.ownNames (s : Scope) : List String := s.own.map Prod.fst

/-- First index `j ≥ i` in the list whose element satisfies `p`
(`i` is the index of the head of the supplied list). -/
def findIdxFrom (p : Scope → Bool) : List Scope → Nat → Option Nat
  | [], _ => none
  | s :: rest, i => if p s then some i else findIdxFrom p rest (i + 1)

/-- First scope at or above index `i` satisfying `p`. -/
def Env.firstFrom (env : Env) (p : Scope → Bool) (i : Nat) : Option Nat :=
  findIdxFrom p (env.chain.drop i) i

/-- `scope.hasOwnBinding(name)`. -/
def Env.hasOwnBinding (env : Env) (i : Nat) (n : String) : Bool :=
  match env.chain[i]? with
  | some s => s.ownNames.contains n
  | none => false

/-- `scope.hasGlobal(name)`: uniform along the chain (the host keeps the
globals at the program scope). -/
def Env.hasGlobal (env : Env) (n : String) : Bool := env.globals.contains n

/-- `scope.hasBinding(name)`: an own binding at the scope or an ancestor, or
an ambient/built-in global (the host's built-in global table is folded into
`globals` here). -/
def Env.hasBinding (env : Env) (i : Nat) (n : String) : Bool :=
  (env.chain.drop i).any (fun s => s.ownNames.contains n) || env.hasGlobal n

/-- `scope.getProgramParent()` seen from index `i` (the host throws when no
program scope exists; well-formed chains always have one, so the `none`
case is unreachable there). -/
def Env.getProgramParent (env : Env) (i : Nat) : Option Nat :=
  env.firstFrom (fun s => s.kind == .prog) i

/-- `scope.getFunctionParent()` seen from index `i`: the nearest scope, the
starting one included, whose path is a function. -/
def Env.getFunctionParentS (env : Env) (i : Nat) : Option Nat :=
  env.firstFrom (fun s => s.kind == .fn) i

/-- `scope.getBinding(name)` resolved from index `i`: the first scope at or
above `i` with an own binding for the name, together with that binding's
kind. -/
def Env.getBinding (env : Env) (i : Nat) (n : String) : Option (Nat × BKind) :=
  match env.firstFrom (fun s => s.ownNames.contains n) i with
  | none => none
  | some j =>
    match env.chain[j]? with
    | some s =>
      match s.own.find? (fun q => q.1 == n) with
      | some q => some (j, q.2)
      | none => none
    | none => none

/-- The resolvability walk of `outermostScopeWith` (lines 133–147 of the
source): walk the scope chain from the use-site outward looking for an own
binding or a global. -/
def Env.resolvable (env : Env) (n : String) : Bool :=
  !env.chain.isEmpty &&
    (env.chain.any (fun s => s.ownNames.contains n) || env.hasGlobal n)

/-- Find the next enclosing function-or-program scope at or above index `i`
(the search for `parentFunc` in the source). -/
def nextFuncOrProg (env : Env) (i : Nat) : Option Nat :=
  env.firstFrom (fun s => s.kind == .fn || s.kind == .prog) i

/-- The per-name test of the widening loop: may hoisting into prospective
scope `p` keep name `n` visible?  The binding is resolved from the use-site
(index 0).  With no binding the name must be a global known to `p`; with a
binding, `p` must reach the binding's scope by walking parents, or the name
must be an identifier parameter of `p`'s function, or a global. -/
def nameOkAt (env : Env) (p : Nat) (n : String) : Bool :=
  match env.getBinding 0 n with
  | none => env.hasGlobal n
  | some (b, _) =>
    decide (p ≤ b)
      || (match env.chain[p]? with
          | some s => s.kind == .fn && s.params.contains n
          | none => false)
      || env.hasGlobal n

/-- The widening loop of `outermostScopeWith` (lines 150–212): while the
current target has a parent, find the next enclosing function/program scope
and advance to it when every name passes `nameOkAt`; stop otherwise.  The
fuel argument only bounds the iteration count; `env.chain.length` always
suffices because the target index strictly increases. -/
def widenLoop (env : Env) (names : List String) : Nat → Nat → Nat
  | 0, t => t
  | fuel + 1, t =>
    if t + 1 < env.chain.length then
      match nextFuncOrProg env (t + 1) with
      | none => t
      | some p => if names.all (nameOkAt env p) then widenLoop env names fuel p else t
    else t

/-- `path.scope.getFunctionParent() || path.scope.getProgramParent()`: the
candidate's current enclosing function scope, or the program scope when the
use-site is not inside a function. -/
def currentFnOrProg (env : Env) : Option Nat :=
  (env.getFunctionParentS 0).orElse (fun _ => env.getProgramParent 0)

/-- `outermostScopeWith(allNames, startPath)`: the scope resolver.  Returns
the index of the chosen target scope.  (`none` models the source's `return
null`, reachable only when the chain has neither a function nor a program
scope.) -/
def outermostScopeWith (allNames : List String) (env : Env) : Option Nat :=
  if allNames.isEmpty then env.getProgramParent 0
  else
    match currentFnOrProg env with
    | none => none
    | some currentScope =>
      if allNames.all env.resolvable then
        some (widenLoop env allNames env.chain.length currentScope)
      else some currentScope

/-- Is a character allowed in an identifier by `sanitizeBase`? -/
def isIdentChar (c : Char) : Bool := c.isAlphanum || c == '_' || c == '$'

/-- `sanitizeBase(base)`: replace every non-identifier character with an
underscore; an empty result (only possible for an empty input, since the
replacement is per-character) falls back to `"fb"`. -/
def sanitizeBase (base : String) : String :=
  let cleaned := String.mk (base.data.map (fun c => if isIdentChar c then c else '_'))
  if cleaned == "" then "fb" else cleaned

/-- The reserved-names table of a run: names claimed by earlier hoists,
keyed by scope-chain index (the uninitialized entries of the source's
per-scope table are empty lists here; the source also seeds a scope's entry
with its own binding names, which the collision test below re-checks anyway
through `hasBinding`/`hasOwnBinding`). -/
def getRsv (rsv : List (List String)) (j : Nat) : List String := (rsv[j]?).getD []

/-- Record a name as reserved at scope `t`. -/
def reserveAt (rsv : List (List String)) (t : Nat) (n : String) : List (List String) :=
  rsv.set t (n :: getRsv rsv t)

/-- The collision test of `makeUniqueFbName`: (a) anything reserved, bound
or global at the target scope `t` or one of its ancestors; (b) anything
reserved or own-bound in a scope on the chain from the use-site (index 0)
up to, but excluding, the target scope. -/
def takenName (env : Env) (rsv : List (List String)) (t : Nat) (n : String) : Bool :=
  ((List.range env.chain.length).any (fun j =>
      decide (t ≤ j) &&
        ((getRsv rsv j).contains n || env.hasBinding j n || env.hasGlobal n)))
    || ((List.range t).any (fun u => (getRsv rsv u).contains n || env.hasOwnBinding u n))

/-- The candidate sequence tried by the allocator: `<base>__fb`,
`<base>__fb_1`, `<base>__fb_2`, … (for an already sanitized base). -/
def fbCandidate (base : String) (k : Nat) : String :=
  if k = 0 then base ++ "__fb" else base ++ "__fb_" ++ toString k

/-- The numbered-candidate search (`while (taken(base__fb_i)) i++`), given
fuel; the source's loop has no bound, so exhausted fuel returns `none`. -/
def findFbIndexed (taken : String → Bool) (base : String) : Nat → Nat → Option String
  | 0, _ => none
  | fuel + 1, i =>
    if taken (base ++ "__fb_" ++ toString i) then findFbIndexed taken base fuel (i + 1)
    else some (base ++ "__fb_" ++ toString i)

/-- `makeUniqueFbName(base, targetScope, useSitePath)`: sanitize the base,
try `<base>__fb` first, then `<base>__fb_1`, `<base>__fb_2`, …; the first
non-colliding candidate is chosen.  (Reservation of the chosen name is done
by the callers through `reserveAt`.) -/
def makeUniqueFbName (env : Env) (rsv : List (List String)) (t : Nat) (base0 : String)
    (fuel : Nat) : Option String :=
  let base := sanitizeBase base0
  if !takenName env rsv t (base ++ "__fb") then some (base ++ "__fb")
  else findFbIndexed (takenName env rsv t) base fuel 1

/-- `deriveBaseFromCall(path)`: callee name (or inner callee name when the
callee is itself a call), joined with any directly-identifier-valued
arguments, then sanitized; `"fb"` when nothing applies. -/
def deriveBaseFromCall (callee : Expr) (args : List Expr) : String :=
  let base :=
    match callee with
    | .ident n => n
    | .call (.ident n) _ => n
    | _ => "fb"
  let argNames :=
    String.intercalate "_" (args.filterMap (fun a =>
      match a with
      | .ident n => some n
      | _ => none))
  sanitizeBase (if argNames == "" then base else base ++ "_" ++ argNames)

/-! ## Hoist-site insertion -/

/-- The statement container of a target scope: the program's body, a
function with an explicit block body, or an arrow function whose body is a
single implicit-return expression.  (The resolver only ever produces
function or program scopes as targets, so no other container shapes
arise.) -/
inductive Container where
  | program (body : List Stmt)
  | fnBlock (params : List String) (body : List Stmt)
  | fnExpr (params : List String) (body : Expr)

/-- `ensureArrowBlock(funcPath)`: convert an implicit-return expression body
into an explicit block whose sole statement returns the original
expression. -/
def ensureArrowBlock : Container → Container
  | .fnExpr ps e => .fnBlock ps [.ret (some e)]
  | c => c

/-- A statement the insertion loop skips over: an import declaration (only
at program level) or a literal-only directive statement such as
`"use strict"`. -/
def isHoistAnchor (isProgram : Bool) : Stmt → Bool
  | .importD => isProgram
  | .exprStmt (.lit true _) => true
  | _ => false

/-- `insertAfterPrologueAndImports(containerPath, nodeToInsert)`: walk the
leading run of import/directive statements, remembering the last one as the
anchor; insert right after the anchor, or at the very front when there is
none. -/
def insertAfterPrologueAndImports (isProgram : Bool) (body : List Stmt) (node : Stmt) :
    List Stmt :=
  match (body.takeWhile (isHoistAnchor isProgram)).length with
  | 0 => node :: body
  | k => body.take k ++ node :: body.drop k

/-- `getHoistInsertionPath` composed with the callers' insertion call: for a
program target insert into the program body; for a function target insert
into its block body, converting an implicit-return arrow body first. -/
def hoistInto (c : Container) (decl : Stmt) : Container :=
  match ensureArrowBlock c with
  | .program body => .program (insertAfterPrologueAndImports true body decl)
  | .fnBlock ps body => .fnBlock ps (insertAfterPrologueAndImports false body decl)
  | .fnExpr ps e => .fnExpr ps e

/-! ## The runtime helper's accessor

`ensureHelper` injects (once per unit)

```js
function <helper>(init) {
  let get = () => { const v = init(); get = () => v; return v; };
  return () => get();
}
```

The returned accessor `() => get()` is modelled, as the spec directs, as a
two-state object: `ThunkState.pending` is the accessor while `get` is still
bound to the initial closure, `ThunkState.cached v` is the accessor after
`get` has rebound itself to `() => v`.  The producer `init` may read and
update an ambient memory `σ`; `execs` counts how many times it has run. -/

inductive ThunkState (α : Type) where
  | pending
  | cached (v : α)

/-- The accessor together with the ambient memory and the count of producer
executions. -/
structure AccessorState (α σ : Type) where
  st : ThunkState α
  mem : σ
  execs : Nat

/-- One invocation of the accessor (`() => get()`): in the pending state it
runs the producer, caches the value, rebinds `get`, and returns the value;
in the cached state it returns the cached value and touches nothing. -/
def forceAccessor {α σ : Type} (init : σ → α × σ) :
    AccessorState α σ → α × AccessorState α σ
  | { st := .pending, mem := s, execs := k } =>
    ((init s).1, { st := .cached (init s).1, mem := (init s).2, execs := k + 1 })
  | { st := .cached v, mem := s, execs := k } => (v, { st := .cached v, mem := s, execs := k })

/-- A finite sequence of `n` accessor invocations, returning the list of
values observed. -/
def invokeAccessor {α σ : Type} (init : σ → α × σ) :
    Nat → AccessorState α σ → List α × AccessorState α σ
  | 0, st => ([], st)
  | n + 1, st =>
    let r := forceAccessor init st
    let rest := invokeAccessor init n r.2
    (r.1 :: rest.1, rest.2)

/-! ## The transform driver's visitors -/

/-- Does a name match `/__fb(_\d+)?$/` (a call to an already-hoisted
accessor)? -/
def matchesFbThunkName (s : String) : Bool :=
  let cs := s.data.reverse
  (cs.take 4 == ['b', 'f', '_', '_'])
    || (let ds := cs.takeWhile Char.isDigit
        !ds.isEmpty && ((cs.drop ds.length).take 5 == ['_', 'b', 'f', '_', '_']))

/-- Is this expression an identifier naming the runtime helper? -/
def isHelperCallee (helper : String) : Expr → Bool
  | .ident n => n == helper
  | _ => false

/-- Is this expression an identifier matching the hoisted-accessor name
pattern? -/
def isFbCallee : Expr → Bool
  | .ident n => matchesFbThunkName n
  | _ => false

/-- `isInFloatedBinding(path)`: does some enclosing expression node (the
ancestor list is innermost-first) call the runtime helper? -/
def isInFloatedBinding (helper : String) (ancestors : List Expr) : Bool :=
  ancestors.any (fun a =>
    match a with
    | .call c _ => isHelperCallee helper c
    | _ => false)

/-- `path.getFunctionParent()`: the use-site lies inside some function. -/
def hasFunctionParent (env : Env) : Bool := env.chain.any (fun s => s.kind == .fn)

/-- The traversal context of a visited node: the scope chain visible from
it, the run's reserved-names table, the helper's chosen name, the run's
generated-node markers (as membership predicates for the two node sorts),
the enclosing expression nodes, and whether the node sits in the
initializer position of a variable declarator. -/
structure Ctx where
  env : Env
  rsv : List (List String)
  helperName : String
  genE : Expr → Bool
  genS : Stmt → Bool
  ancestors : List Expr
  isDeclInit : Bool

/-- The classification guards at the head of the `CallExpression` visitor
(lines 457–474 of the source): a bare call-expression candidate is a call
that is not marked generated, whose callee is neither an already-hoisted
accessor nor the helper, that does not sit inside the helper's producer,
that lies inside some function, and that is not a declarator's
initializer. -/
def callCandidate (ctx : Ctx) (e : Expr) : Bool :=
  match e with
  | .call c args =>
    !ctx.genE (.call c args)
      && !isFbCallee c
      && !isHelperCallee ctx.helperName c
      && !isInFloatedBinding ctx.helperName ctx.ancestors
      && hasFunctionParent ctx.env
      && !ctx.isDeclInit
  | _ => false

/-- The classification guards at the head of the `VariableDeclarator`
visitor (lines 531–541): a declaration candidate is a single-name
declarator with an initializer, not marked generated (the declarator and
its declaration statement are one node in this model, so the source's two
membership tests collapse into one), lying inside some function. -/
def declCandidate (ctx : Ctx) (d : Stmt) : Bool :=
  match d with
  | .varDecl k i (some init) => !ctx.genS (.varDecl k i (some init)) && hasFunctionParent ctx.env
  | _ => false

/-- `t.isLiteral(node)`. -/
def isLit : Expr → Bool
  | .lit _ _ => true
  | _ => false

/-- The extra restriction applied only to bare call-expression candidates
(lines 490–497): some free variable resolves, from the use-site, to a
binding of kind `var`, `let` or `const` (parameters are exempt). -/
def dependsOnLocalVar (env : Env) (fvs : List String) : Bool :=
  fvs.any (fun n =>
    match env.getBinding 0 n with
    | none => false
    | some (_, k) => if k == .param then false else k == .varB || k == .letB || k == .constB)

/-- The nodes created by one accepted hoist: the deep copy of the original
expression, the zero-argument producer wrapping it, the helper call, the
hoisted declaration binding the new name, and the zero-argument replacement
call, together with the chosen name, the target scope and the updated
reserved-names table. -/
structure StepOut where
  fbName : String
  cloned : Expr
  producer : Expr
  helperCall : Expr
  fbDecl : Stmt
  fbCall : Expr
  target : Nat
  rsvAfter : List (List String)

/-- The body of the `CallExpression` visitor (lines 457–529).  Returns
`none` when the candidate is left untouched and the created nodes
otherwise.  `fuel` bounds the allocator's unbounded numeric-suffix search;
the actual tree mutation (insertion via `hoistInto` at the target scope and
in-place replacement by `fbCall`) is modelled separately since the tree
itself is not part of the context. -/
def callStep (ctx : Ctx) (e : Expr) (fuel : Nat) : Option StepOut :=
  match e with
  | .call c args =>
    if !callCandidate ctx (.call c args) then none
    else if !isPureEnoughInit (.call c args) then none
    else if containsFrameSensitiveThings (.call c args) then none
    else
      let fvs := freeVarsOfNode (.call c args)
      match outermostScopeWith fvs ctx.env with
      | none => none
      | some target =>
        if some target == currentFnOrProg ctx.env then none
        else if dependsOnLocalVar ctx.env fvs then none
        else
          match makeUniqueFbName ctx.env ctx.rsv target (deriveBaseFromCall c args) fuel with
          | none => none
          | some fbName =>
            let cloned := Expr.call c args
            let producer := Expr.arrowE [] cloned
            let helperCall := Expr.call (.ident ctx.helperName) [producer]
            some { fbName := fbName, cloned := cloned, producer := producer,
                   helperCall := helperCall,
                   fbDecl := Stmt.varDecl .constD fbName (some helperCall),
                   fbCall := Expr.call (.ident fbName) [],
                   target := target,
                   rsvAfter := reserveAt ctx.rsv target fbName }
  | _ => none

/-- The body of the `VariableDeclarator` visitor (lines 531–596).  `refs`
is the length of the declared binding's reference list as reported by the
host (`none` when the host has no binding for the name). -/
def declStep (ctx : Ctx) (d : Stmt) (refs : Option Nat) (fuel : Nat) : Option StepOut :=
  match d with
  | .varDecl dk idName (some init) =>
    if !declCandidate ctx (.varDecl dk idName (some init)) then none
    else if !isPureEnoughInit init then none
    else if containsFrameSensitiveThings init then none
    else
      match refs with
      | none => none
      | some r =>
        if r < 1 then none
        else
          let fvs := freeVarsOfDecl init
          if fvs.isEmpty && !isLit init then none
          else
            match outermostScopeWith fvs ctx.env with
            | none => none
            | some target =>
              if some target == currentFnOrProg ctx.env then none
              else
                match makeUniqueFbName ctx.env ctx.rsv target idName fuel with
                | none => none
                | some fbName =>
                  let cloned := init
                  let producer := Expr.arrowE [] cloned
                  let helperCall := Expr.call (.ident ctx.helperName) [producer]
                  some { fbName := fbName, cloned := cloned, producer := producer,
                         helperCall := helperCall,
                         fbDecl := Stmt.varDecl .constD fbName (some helperCall),
                         fbCall := Expr.call (.ident fbName) [],
                         target := target,
                         rsvAfter := reserveAt ctx.rsv target fbName }
  | _ => none

/-- The base hint the `CallExpression` visitor hands to the allocator. -/
def baseOfCall : Expr → String
  | .call c args => deriveBaseFromCall c args
  | _ => "fb"

/-! ## Specification-side (declarative) statements -/

/-- Well-formed scope chain: non-empty, exactly its last scope is the
program scope, and each scope's identifier parameters appear among its own
bindings (the host always registers parameters as bindings of the function
scope). -/
def Env.wf (env : Env) : Bool :=
  !env.chain.isEmpty
    && (match env.chain.getLast? with
        | some s => s.kind == .prog
        | none => false)
    && env.chain.dropLast.all (fun s => s.kind != .prog)
    && env.chain.all (fun s => s.params.all (fun n => s.ownNames.contains n))

/-- The acceptance condition of one widening step, stated as the claim
states it: for every free variable, the binding resolved from the original
use-site has its owning scope equal to the prospective wider scope `p` or
an ancestor of it, or the name is an identifier parameter of `p`'s
function, or `p` sees the name as ambient/global. -/
def AcceptWiden (env : Env) (names : List String) (p : Nat) : Prop :=
  ∀ n ∈ names,
    (∃ b k, env.getBinding 0 n = some (b, k) ∧ p ≤ b)
      ∨ (∃ s, env.chain[p]? = some s ∧ s.kind = .fn ∧ n ∈ s.params)
      ∨ env.hasGlobal n = true

/-- Reachability by repeatedly widening to the next enclosing
function/program scope, each step accepted. -/
inductive Widens (env : Env) (names : List String) : Nat → Nat → Prop where
  | refl (t : Nat) : Widens env names t t
  | step {t p r : Nat} : nextFuncOrProg env (t + 1) = some p →
      AcceptWiden env names p → Widens env names p r → Widens env names t r

/-- No further widening from `r` is accepted (so `r` is the last successful
candidate). -/
def NoMoreWiden (env : Env) (names : List String) (r : Nat) : Prop :=
  ∀ p, nextFuncOrProg env (r + 1) = some p → ¬ AcceptWiden env names p

/-- Claim-side restriction for bare call-expression candidates: the name
resolves, from the use-site, to a non-parameter ordinary-variable binding
owned by the current enclosing function (a scope at or below the current
function scope on the chain). -/
def resolvesToLocalOfCurrentFn (env : Env) (n : String) : Bool :=
  match env.getFunctionParentS 0, env.getBinding 0 n with
  | some cf, some (b, k) =>
    decide (b ≤ cf) && !(k == .param) && (k == .varB || k == .letB || k == .constB)
  | _, _ => false

/-- Code-side restriction actually applied: the name resolves, from the
use-site, to a `var`/`let`/`const` binding owned by any scope whatsoever. -/
def resolvesToVarLetConst (env : Env) (n : String) : Bool :=
  match env.getBinding 0 n with
  | some (_, k) => !(k == .param) && (k == .varB || k == .letB || k == .constB)
  | none => false

/-- The claim-side collision condition for an allocated name: a reserved,
bound or ambient name at the target scope `t` or an ancestor of it, or an
own binding or reservation in a scope on the chain from the use-site up to,
but excluding, the target scope. -/
def CollidesName (env : Env) (rsv : List (List String)) (t : Nat) (n : String) : Prop :=
  (∃ j, t ≤ j ∧ j < env.chain.length ∧
      (n ∈ getRsv rsv j ∨ env.hasBinding j n = true ∨ env.hasGlobal n = true))
    ∨ (∃ u, u < t ∧ (n ∈ getRsv rsv u ∨ env.hasOwnBinding u n = true))

mutual
/-- The frame-sensitivity walk as the claim describes it: nesting-aware,
not descending into ordinary (non-arrow) functions, while arrow-like
lexical-context functions do not reset the frame. -/
def fsNestE : Expr → Bool
  | .ident n => n == "arguments"
  | .lit _ _ => false
  | .call c args => fsNestE c || fsNestLE args
  | .arrowE _ b => fsNestE b
  | .arrowB _ b => fsNestLS b
  | .funcE _ _ => false
  | .thisE => true
  | .superE => true
  | .newTarget => true
  | .member o _ => fsNestE o
  | .memberC o p => fsNestE o || fsNestE p
  | .bin l r => fsNestE l || fsNestE r

def fsNestS : Stmt → Bool
  | .varDecl _ _ none => false
  | .varDecl _ _ (some e) => fsNestE e
  | .exprStmt e => fsNestE e
  | .ret none => false
  | .ret (some e) => fsNestE e
  | .importD => false
  | .funcDecl _ _ _ => false
  | .block b => fsNestLS b

def fsNestLE : List Expr → Bool
  | [] => false
  | e :: es => fsNestE e || fsNestLE es

def fsNestLS : List Stmt → Bool
  | [] => false
  | s :: ss => fsNestS s || fsNestLS ss
end

/-! ## Concrete instances

`envA`/`ctxA`/`eA` realize the spec's Scenario A: the call `add(x)(y)`
sitting inside `function (z)` inside `function (y)` inside
`function main(x)` at the top level. -/

def envA : Env :=
  { chain := [
      { kind := .fn, own := [("z", .param)], params := ["z"] },
      { kind := .fn, own := [("y", .param)], params := ["y"] },
      { kind := .fn, own := [("x", .param)], params := ["x"] },
      { kind := .prog, own := [("add", .hoisted), ("main", .hoisted)], params := [] }],
    globals := [] }

def ctxA : Ctx :=
  { env := envA, rsv := [[], [], [], []], helperName := "floatedBinding",
    genE := fun _ => false, genS := fun _ => false, ancestors := [], isDeclInit := false }

def eA : Expr := .call (.call (.ident "add") [.ident "x"]) [.ident "y"]

def outA : StepOut :=
  { fbName := "add_y__fb", cloned := eA, producer := .arrowE [] eA,
    helperCall := .call (.ident "floatedBinding") [.arrowE [] eA],
    fbDecl := .varDecl .constD "add_y__fb" (some (.call (.ident "floatedBinding") [.arrowE [] eA])),
    fbCall := .call (.ident "add_y__fb") [],
    target := 1, rsvAfter := [[], ["add_y__fb"], [], []] }

/-- A generated-marker predicate consistent with a run that has marked the
nodes of `outA` (used to exercise the guards). -/
def ctxAgen : Ctx :=
  { env := envA, rsv := [[], ["add_y__fb"], [], []], helperName := "floatedBinding",
    genE := fun _ => true, genS := fun _ => true, ancestors := [], isDeclInit := false }

/-- Chain for the C6 scenario: a function with parameter `a` at top level;
the name `z` is bound nowhere and is no global. -/
def envC6 : Env :=
  { chain := [
      { kind := .fn, own := [("a", .param)], params := ["a"] },
      { kind := .prog, own := [("f", .hoisted)], params := [] }],
    globals := [] }

def ctxC6 : Ctx :=
  { env := envC6, rsv := [[], []], helperName := "floatedBinding",
    genE := fun _ => false, genS := fun _ => false, ancestors := [], isDeclInit := false }

/-- `f(z)`: the name `z` is unresolvable from the use-site of `envC6`. -/
def eC6 : Expr := .call (.ident "f") [.ident "z"]

/-- Chain for the C9 counterexample: the use-site sits in a function with
parameter `a`; at the program scope, `f` is a function declaration and `g`
a `const` binding. -/
def env9 : Env :=
  { chain := [
      { kind := .fn, own := [("a", .param)], params := ["a"] },
      { kind := .prog, own := [("f", .hoisted), ("g", .constB)], params := [] }],
    globals := [] }

def ctx9 : Ctx :=
  { env := env9, rsv := [[], []], helperName := "floatedBinding",
    genE := fun _ => false, genS := fun _ => false, ancestors := [], isDeclInit := false }

/-- `f(g)`: pure, frame-insensitive, and every free variable is visible at
the program scope; but `g` resolves to a `const` at the program scope. -/
def e9 : Expr := .call (.ident "f") [.ident "g"]

/-- Chain for the C4 counterexample: the use-site lies in an inner function
with parameter `a`, inside a function with parameters `f, g, h, q`, at top
level. -/
def env4 : Env :=
  { chain := [
      { kind := .fn, own := [("a", .param)], params := ["a"] },
      { kind := .fn, own := [("f", .param), ("g", .param), ("h", .param), ("q", .param)],
        params := ["f", "g", "h", "q"] },
      { kind := .prog, own := [], params := [] }],
    globals := [] }

def ctx4 : Ctx :=
  { env := env4, rsv := [[], [], []], helperName := "floatedBinding",
    genE := fun _ => false, genS := fun _ => false, ancestors := [], isDeclInit := false }

/-- `f(function () { var q = g(h); return h(q); })`: a floatable call whose
copied subtree contains a variable declaration. -/
def e4 : Expr :=
  .call (.ident "f")
    [.funcE [] [
      .varDecl .varD "q" (some (.call (.ident "g") [.ident "h"])),
      .ret (some (.call (.ident "h") [.ident "q"]))]]

def out4 : StepOut :=
  { fbName := "f__fb", cloned := e4, producer := .arrowE [] e4,
    helperCall := .call (.ident "floatedBinding") [.arrowE [] e4],
    fbDecl := .varDecl .constD "f__fb" (some (.call (.ident "floatedBinding") [.arrowE [] e4])),
    fbCall := .call (.ident "f__fb") [],
    target := 1, rsvAfter := [[], ["f__fb"], []] }

/-- The declarator inside the copied subtree of `e4` — a node freshly
created by the deep copy. -/
def d4 : Stmt := .varDecl .varD "q" (some (.call (.ident "g") [.ident "h"]))

/-- The traversal context at `d4` when the traversal descends into the
hoisted declaration inserted at the target scope: the chain now starts at
the inner ordinary function's scope, then the producer arrow's scope, then
the target function scope (which has gained the hoisted `const f__fb`
binding), then the program scope.  The generated-marker predicate holds on
the run-created declaration (its initializer calls the helper) but not on
the copied declarator `d4`. -/
def env4g : Env :=
  { chain := [
      { kind := .fn, own := [("q", .varB)], params := [] },
      { kind := .fn, own := [], params := [] },
      { kind := .fn, own := [("f", .param), ("g", .param), ("h", .param), ("q", .param), ("f__fb", .constB)], params := ["f", "g", "h", "q"] },
      { kind := .prog, own := [], params := [] }],
    globals := [] }

/-- Generated-marker predicate of the run after the `e4` hoist, holding on
the run-created declaration (its initializer calls the helper) but not on
the copied declarator `d4`. -/
def genS4 : Stmt → Bool
  | .varDecl _ _ (some (.call (.ident "floatedBinding") _)) => true
  | _ => false

def ctx4g : Ctx :=
  { env := env4g,
    rsv := [[], [], ["f__fb"], []], helperName := "floatedBinding",
    genE := fun _ => false,
    genS := genS4,
    ancestors := [.funcE [] [
        .varDecl .varD "q" (some (.call (.ident "g") [.ident "h"])),
        .ret (some (.call (.ident "h") [.ident "q"]))],
      .arrowE [] e4,
      .call (.ident "floatedBinding") [.arrowE [] e4]],
    isDeclInit := false }

/-- C7's input: the arrow `(a) => a + b`, whose parameter `a` is bound
within the analyzed subtree itself. -/
def exC7 : Expr := .arrowE ["a"] (.bin (.ident "a") (.ident "b"))

/-- C8's input: `f(function () { return this.x; })` — the frame-sensitive
reference occurs only inside a nested ordinary (non-arrow) function. -/
def exC8 : Expr := .call (.ident "f") [.funcE [] [.ret (some (.member .thisE "x"))]]

/-- A nullary call nested deeply inside an otherwise pure expression. -/
def exNullary : Expr := .call (.ident "f") [.arrowE [] (.bin (.call (.ident "g") []) (.ident "x"))]

/-! ## Supporting lemmas -/

theorem mem_dedupAux (n : String) :
    ∀ (l seen : List String), n ∈ dedupAux seen l ↔ n ∈ l ∧ n ∉ seen := by
  intro l
  induction l with
  | nil => intro seen; simp [dedupAux]
  | cons x xs ih =>
    intro seen
    rw [dedupAux]
    by_cases hc : seen.contains x = true
    · have hx : x ∈ seen := List.elem_iff.mp hc
      rw [if_pos hc, ih]
      simp only [List.mem_cons]
      constructor
      · rintro ⟨h1, h2⟩
        exact ⟨Or.inr h1, h2⟩
      · rintro ⟨rfl | h1, h2⟩
        · exact absurd hx h2
        · exact ⟨h1, h2⟩
    · have hx : x ∉ seen := fun hm => hc (List.elem_iff.mpr hm)
      rw [if_neg hc]
      simp only [List.mem_cons, ih]
      constructor
      · rintro (rfl | ⟨h1, h2⟩)
        · exact ⟨Or.inl rfl, hx⟩
        · exact ⟨Or.inr h1, fun hn => h2 (Or.inr hn)⟩
      · rintro ⟨rfl | h1, h2⟩
        · exact Or.inl rfl
        · by_cases hxn : n = x
          · exact Or.inl hxn
          · exact Or.inr ⟨h1, fun hn => hn.elim hxn h2⟩

theorem mem_dedupKeepFirst (n : String) (l : List String) :
    n ∈ dedupKeepFirst l ↔ n ∈ l := by
  unfold dedupKeepFirst
  rw [mem_dedupAux]
  simp

mutual
theorem mem_identsE_iff (n : String) : ∀ (e : Expr), n ∈ identsE e ↔ Expr.ident n ∈ allExprsE e
  | .ident m => by simp [identsE, allExprsE]
  | .lit b v => by simp [identsE, allExprsE]
  | .call c args => by
    simp only [identsE, allExprsE, List.mem_append, List.mem_cons]
    rw [mem_identsE_iff n c, mem_identsLE_iff n args]
    simp
  | .arrowE ps b => by
    simp only [identsE, allExprsE, List.mem_cons]
    rw [mem_identsE_iff n b]
    simp
  | .arrowB ps b => by
    simp only [identsE, allExprsE, List.mem_cons]
    rw [mem_identsLS_iff n b]
    simp
  | .funcE ps b => by
    simp only [identsE, allExprsE, List.mem_cons]
    rw [mem_identsLS_iff n b]
    simp
  | .thisE => by simp [identsE, allExprsE]
  | .superE => by simp [identsE, allExprsE]
  | .newTarget => by simp [identsE, allExprsE]
  | .member o p => by
    simp only [identsE, allExprsE, List.mem_cons]
    rw [mem_identsE_iff n o]
    simp
  | .memberC o p => by
    simp only [identsE, allExprsE, List.mem_append, List.mem_cons]
    rw [mem_identsE_iff n o, mem_identsE_iff n p]
    simp
  | .bin l r => by
    simp only [identsE, allExprsE, List.mem_append, List.mem_cons]
    rw [mem_identsE_iff n l, mem_identsE_iff n r]
    simp

theorem mem_identsS_iff (n : String) : ∀ (s : Stmt), n ∈ identsS s ↔ Expr.ident n ∈ allExprsS s
  | .varDecl k i none => by simp [identsS, allExprsS]
  | .varDecl k i (some e) => by
    simp only [identsS, allExprsS]
    exact mem_identsE_iff n e
  | .exprStmt e => by
    simp only [identsS, allExprsS]
    exact mem_identsE_iff n e
  | .ret none => by simp [identsS, allExprsS]
  | .ret (some e) => by
    simp only [identsS, allExprsS]
    exact mem_identsE_iff n e
  | .importD => by simp [identsS, allExprsS]
  | .funcDecl nm ps b => by
    simp only [identsS, allExprsS]
    exact mem_identsLS_iff n b
  | .block b => by
    simp only [identsS, allExprsS]
    exact mem_identsLS_iff n b

theorem mem_identsLE_iff (n : String) :
    ∀ (l : List Expr), n ∈ identsLE l ↔ Expr.ident n ∈ allExprsLE l
  | [] => by simp [identsLE, allExprsLE]
  | e :: es => by
    simp only [identsLE, allExprsLE, List.mem_append]
    rw [mem_identsE_iff n e, mem_identsLE_iff n es]

theorem mem_identsLS_iff (n : String) :
    ∀ (l : List Stmt), n ∈ identsLS l ↔ Expr.ident n ∈ allExprsLS l
  | [] => by simp [identsLS, allExprsLS]
  | s :: ss => by
    simp only [identsLS, allExprsLS, List.mem_append]
    rw [mem_identsS_iff n s, mem_identsLS_iff n ss]
end

mutual
theorem fsE_iff : ∀ (e : Expr),
    fsE e = true ↔ ∃ x ∈ allExprsE e, isFrameSensitiveNode x = true
  | .ident m => by simp [fsE, allExprsE, isFrameSensitiveNode]
  | .lit b v => by simp [fsE, allExprsE, isFrameSensitiveNode]
  | .call c args => by
    simp only [fsE, allExprsE, Bool.or_eq_true, List.mem_append, List.mem_cons]
    rw [fsE_iff c, fsListE_iff args]
    constructor
    · rintro (⟨x, hx, hfs⟩ | ⟨x, hx, hfs⟩)
      · exact ⟨x, Or.inr (Or.inl hx), hfs⟩
      · exact ⟨x, Or.inr (Or.inr hx), hfs⟩
    · rintro ⟨x, (rfl | hx | hx), hfs⟩
      · simp [isFrameSensitiveNode] at hfs
      · exact Or.inl ⟨x, hx, hfs⟩
      · exact Or.inr ⟨x, hx, hfs⟩
  | .arrowE ps b => by
    simp only [fsE, allExprsE, List.mem_cons]
    rw [fsE_iff b]
    constructor
    · rintro ⟨x, hx, hfs⟩
      exact ⟨x, Or.inr hx, hfs⟩
    · rintro ⟨x, (rfl | hx), hfs⟩
      · simp [isFrameSensitiveNode] at hfs
      · exact ⟨x, hx, hfs⟩
  | .arrowB ps b => by
    simp only [fsE, allExprsE, List.mem_cons]
    rw [fsListS_iff b]
    constructor
    · rintro ⟨x, hx, hfs⟩
      exact ⟨x, Or.inr hx, hfs⟩
    · rintro ⟨x, (rfl | hx), hfs⟩
      · simp [isFrameSensitiveNode] at hfs
      · exact ⟨x, hx, hfs⟩
  | .funcE ps b => by
    simp only [fsE, allExprsE, List.mem_cons]
    rw [fsListS_iff b]
    constructor
    · rintro ⟨x, hx, hfs⟩
      exact ⟨x, Or.inr hx, hfs⟩
    · rintro ⟨x, (rfl | hx), hfs⟩
      · simp [isFrameSensitiveNode] at hfs
      · exact ⟨x, hx, hfs⟩
  | .thisE => by simp [fsE, allExprsE, isFrameSensitiveNode]
  | .superE => by simp [fsE, allExprsE, isFrameSensitiveNode]
  | .newTarget => by simp [fsE, allExprsE, isFrameSensitiveNode]
  | .member o p => by
    simp only [fsE, allExprsE, List.mem_cons]
    rw [fsE_iff o]
    constructor
    · rintro ⟨x, hx, hfs⟩
      exact ⟨x, Or.inr hx, hfs⟩
    · rintro ⟨x, (rfl | hx), hfs⟩
      · simp [isFrameSensitiveNode] at hfs
      · exact ⟨x, hx, hfs⟩
  | .memberC o p => by
    simp only [fsE, allExprsE, Bool.or_eq_true, List.mem_append, List.mem_cons]
    rw [fsE_iff o, fsE_iff p]
    constructor
    · rintro (⟨x, hx, hfs⟩ | ⟨x, hx, hfs⟩)
      · exact ⟨x, Or.inr (Or.inl hx), hfs⟩
      · exact ⟨x, Or.inr (Or.inr hx), hfs⟩
    · rintro ⟨x, (rfl | hx | hx), hfs⟩
      · simp [isFrameSensitiveNode] at hfs
      · exact Or.inl ⟨x, hx, hfs⟩
      · exact Or.inr ⟨x, hx, hfs⟩
  | .bin l r => by
    simp only [fsE, allExprsE, Bool.or_eq_true, List.mem_append, List.mem_cons]
    rw [fsE_iff l, fsE_iff r]
    constructor
    · rintro (⟨x, hx, hfs⟩ | ⟨x, hx, hfs⟩)
      · exact ⟨x, Or.inr (Or.inl hx), hfs⟩
      · exact ⟨x, Or.inr (Or.inr hx), hfs⟩
    · rintro ⟨x, (rfl | hx | hx), hfs⟩
      · simp [isFrameSensitiveNode] at hfs
      · exact Or.inl ⟨x, hx, hfs⟩
      · exact Or.inr ⟨x, hx, hfs⟩

theorem fsS_iff : ∀ (s : Stmt),
    fsS s = true ↔ ∃ x ∈ allExprsS s, isFrameSensitiveNode x = true
  | .varDecl k i none => by simp [fsS, allExprsS]
  | .varDecl k i (some e) => by
    simp only [fsS, allExprsS]
    exact fsE_iff e
  | .exprStmt e => by
    simp only [fsS, allExprsS]
    exact fsE_iff e
  | .ret none => by simp [fsS, allExprsS]
  | .ret (some e) => by
    simp only [fsS, allExprsS]
    exact fsE_iff e
  | .importD => by simp [fsS, allExprsS]
  | .funcDecl nm ps b => by
    simp only [fsS, allExprsS]
    exact fsListS_iff b
  | .block b => by
    simp only [fsS, allExprsS]
    exact fsListS_iff b

theorem fsListE_iff : ∀ (l : List Expr),
    fsListE l = true ↔ ∃ x ∈ allExprsLE l, isFrameSensitiveNode x = true
  | [] => by simp [fsListE, allExprsLE]
  | e :: es => by
    simp only [fsListE, allExprsLE, Bool.or_eq_true, List.mem_append]
    rw [fsE_iff e, fsListE_iff es]
    constructor
    · rintro (⟨x, hx, hfs⟩ | ⟨x, hx, hfs⟩)
      · exact ⟨x, Or.inl hx, hfs⟩
      · exact ⟨x, Or.inr hx, hfs⟩
    · rintro ⟨x, (hx | hx), hfs⟩
      · exact Or.inl ⟨x, hx, hfs⟩
      · exact Or.inr ⟨x, hx, hfs⟩

theorem fsListS_iff : ∀ (l : List Stmt),
    fsListS l = true ↔ ∃ x ∈ allExprsLS l, isFrameSensitiveNode x = true
  | [] => by simp [fsListS, allExprsLS]
  | s :: ss => by
    simp only [fsListS, allExprsLS, Bool.or_eq_true, List.mem_append]
    rw [fsS_iff s, fsListS_iff ss]
    constructor
    · rintro (⟨x, hx, hfs⟩ | ⟨x, hx, hfs⟩)
      · exact ⟨x, Or.inl hx, hfs⟩
      · exact ⟨x, Or.inr hx, hfs⟩
    · rintro ⟨x, (hx | hx), hfs⟩
      · exact Or.inl ⟨x, hx, hfs⟩
      · exact Or.inr ⟨x, hx, hfs⟩
end

theorem findIdxFrom_some {p : Scope → Bool} :
    ∀ (l : List Scope) (i j : Nat), findIdxFrom p l i = some j →
      i ≤ j ∧ j - i < l.length ∧ ∃ s, l[j - i]? = some s ∧ p s = true := by
  intro l
  induction l with
  | nil => intro i j h; simp [findIdxFrom] at h
  | cons s rest ih =>
    intro i j h
    rw [findIdxFrom] at h
    by_cases hp : p s = true
    · rw [if_pos hp] at h
      obtain rfl : i = j := Option.some.inj h
      exact ⟨le_refl _, by simp, s, by simp, hp⟩
    · rw [if_neg hp] at h
      obtain ⟨h1, h2, s', h3, h4⟩ := ih (i + 1) j h
      refine ⟨by omega, by simp only [List.length_cons]; omega, s', ?_, h4⟩
      have hd : j - i = (j - (i + 1)) + 1 := by omega
      rw [hd]
      simpa using h3

theorem findIdxFrom_isSome {p : Scope → Bool} :
    ∀ (l : List Scope) (i m : Nat) (s : Scope), l[m]? = some s → p s = true →
      (findIdxFrom p l i).isSome = true := by
  intro l
  induction l with
  | nil => intro i m s h _; simp at h
  | cons x rest ih =>
    intro i m s h hp
    rw [findIdxFrom]
    by_cases hx : p x = true
    · rw [if_pos hx]; rfl
    · rw [if_neg hx]
      cases m with
      | zero =>
        simp only [List.getElem?_cons_zero, Option.some.injEq] at h
        subst h
        exact absurd hp hx
      | succ m' => exact ih (i + 1) m' s (by simpa using h) hp

theorem firstFrom_some (env : Env) (p : Scope → Bool) (i j : Nat)
    (h : env.firstFrom p i = some j) :
    i ≤ j ∧ j < env.chain.length ∧ ∃ s, env.chain[j]? = some s ∧ p s = true := by
  obtain ⟨h1, h2, s, h3, h4⟩ := findIdxFrom_some _ i j h
  rw [List.getElem?_drop] at h3
  have hj : i + (j - i) = j := by omega
  rw [hj] at h3
  have hlen : (env.chain.drop i).length = env.chain.length - i := List.length_drop i _
  exact ⟨h1, by omega, s, h3, h4⟩

theorem firstFrom_isSome (env : Env) (p : Scope → Bool) (i m : Nat) (s : Scope)
    (hm : env.chain[m]? = some s) (hi : i ≤ m) (hp : p s = true) :
    (env.firstFrom p i).isSome = true := by
  apply findIdxFrom_isSome (env.chain.drop i) i (m - i) s _ hp
  rw [List.getElem?_drop]
  have hmi : i + (m - i) = m := by omega
  rw [hmi]
  exact hm

theorem wf_unpack {env : Env} (h : env.wf = true) :
    env.chain ≠ [] ∧
    (∃ s, env.chain.getLast? = some s ∧ s.kind = .prog) ∧
    (∀ s ∈ env.chain.dropLast, s.kind ≠ .prog) ∧
    (∀ s ∈ env.chain, ∀ n ∈ s.params, s.ownNames.contains n = true) := by
  rw [Env.wf] at h
  simp only [Bool.and_eq_true] at h
  obtain ⟨⟨⟨hne, hlast⟩, hdl⟩, hpar⟩ := h
  refine ⟨?_, ?_, ?_, ?_⟩
  · intro hc
    rw [hc] at hne
    simp at hne
  · cases hl : env.chain.getLast? with
    | none => rw [hl] at hlast; simp at hlast
    | some s =>
      rw [hl] at hlast
      exact ⟨s, rfl, by simpa using hlast⟩
  · intro s hs
    have := (List.all_eq_true.mp hdl) s hs
    simpa using this
  · intro s hs n hn
    exact (List.all_eq_true.mp ((List.all_eq_true.mp hpar) s hs)) n hn

theorem wf_prog_last {env : Env} (h : env.wf = true) :
    ∃ s, env.chain[env.chain.length - 1]? = some s ∧ s.kind = .prog := by
  obtain ⟨hne, ⟨s, hl, hk⟩, _, _⟩ := wf_unpack h
  refine ⟨s, ?_, hk⟩
  rwa [List.getLast?_eq_getElem?] at hl

theorem wf_not_prog {env : Env} (h : env.wf = true) {j : Nat} {s : Scope}
    (hj : env.chain[j]? = some s) (hlt : j < env.chain.length - 1) : s.kind ≠ .prog := by
  obtain ⟨_, _, hdl, _⟩ := wf_unpack h
  apply hdl
  have : env.chain.dropLast[j]? = some s := by
    rw [List.getElem?_dropLast, if_pos hlt]
    exact hj
  exact List.getElem?_mem this

theorem getProgramParent_wf {env : Env} (h : env.wf = true) {i : Nat}
    (hi : i ≤ env.chain.length - 1) :
    env.getProgramParent i = some (env.chain.length - 1) := by
  obtain ⟨s, hlast, hk⟩ := wf_prog_last h
  have hsome : (env.getProgramParent i).isSome = true := by
    apply firstFrom_isSome env _ i (env.chain.length - 1) s hlast hi
    simp [hk]
  cases hp : env.getProgramParent i with
  | none => rw [hp] at hsome; simp at hsome
  | some j =>
    obtain ⟨h1, h2, s', h3, h4⟩ := firstFrom_some env _ i j hp
    have hk' : s'.kind = .prog := by simpa using h4
    by_cases hj : j < env.chain.length - 1
    · exact absurd hk' (wf_not_prog h h3 hj)
    · have : j = env.chain.length - 1 := by omega
      rw [this]

theorem currentFnOrProg_wf {env : Env} (h : env.wf = true) :
    ∃ cur, currentFnOrProg env = some cur := by
  rw [currentFnOrProg]
  cases hf : env.getFunctionParentS 0 with
  | some c => exact ⟨c, rfl⟩
  | none =>
    refine ⟨env.chain.length - 1, ?_⟩
    simp only [Option.orElse]
    exact getProgramParent_wf h (Nat.zero_le _)

theorem invokeAccessor_cached {α σ : Type} (init : σ → α × σ) (v : α) (s : σ) (k : Nat) :
    ∀ n, invokeAccessor init n ⟨.cached v, s, k⟩ = (List.replicate n v, ⟨.cached v, s, k⟩) := by
  intro n
  induction n with
  | zero => rfl
  | succ m ih => simp [invokeAccessor, forceAccessor, ih, List.replicate_succ]

theorem take_length_takeWhile {α : Type} (p : α → Bool) :
    ∀ l : List α, l.take (l.takeWhile p).length = l.takeWhile p := by
  intro l
  induction l with
  | nil => rfl
  | cons x xs ih =>
    by_cases hx : p x = true
    · simp [List.takeWhile_cons, hx, List.take_succ_cons, ih]
    · simp [List.takeWhile_cons, hx]

theorem drop_length_takeWhile {α : Type} (p : α → Bool) :
    ∀ l : List α, l.drop (l.takeWhile p).length = l.dropWhile p := by
  intro l
  induction l with
  | nil => rfl
  | cons x xs ih =>
    by_cases hx : p x = true
    · simp [List.takeWhile_cons, List.dropWhile_cons, hx, ih]
    · simp [List.takeWhile_cons, List.dropWhile_cons, hx]

theorem head?_dropWhile_false {α : Type} (p : α → Bool) (l : List α) (x : α)
    (h : (l.dropWhile p).head? = some x) : p x = false := by
  have hw := List.head?_dropWhile_not p l
  rw [h] at hw
  exact hw

theorem callStep_some_facts {ctx : Ctx} {e : Expr} {fuel : Nat} {out : StepOut}
    (h : callStep ctx e fuel = some out) :
    out.cloned = e ∧
    out.producer = .arrowE [] out.cloned ∧
    out.helperCall = .call (.ident ctx.helperName) [out.producer] ∧
    out.fbDecl = .varDecl .constD out.fbName (some out.helperCall) ∧
    out.fbCall = .call (.ident out.fbName) [] ∧
    out.rsvAfter = reserveAt ctx.rsv out.target out.fbName ∧
    callCandidate ctx e = true ∧
    isPureEnoughInit e = true ∧
    containsFrameSensitiveThings e = false ∧
    dependsOnLocalVar ctx.env (freeVarsOfNode e) = false ∧
    outermostScopeWith (freeVarsOfNode e) ctx.env = some out.target ∧
    (some out.target == currentFnOrProg ctx.env) = false ∧
    makeUniqueFbName ctx.env ctx.rsv out.target (baseOfCall e) fuel = some out.fbName := by
  cases e with
  | call c args =>
    rw [callStep] at h
    cases hcand : callCandidate ctx (.call c args) with
    | false => rw [hcand] at h; simp at h
    | true =>
      rw [hcand] at h
      simp only [Bool.not_true, Bool.false_eq_true, if_false, ite_false] at h
      cases hpure : isPureEnoughInit (.call c args) with
      | false => rw [hpure] at h; simp at h
      | true =>
        rw [hpure] at h
        simp only [Bool.not_true, Bool.false_eq_true, if_false, ite_false] at h
        cases hfs : containsFrameSensitiveThings (.call c args) with
        | true => rw [hfs] at h; simp at h
        | false =>
          rw [hfs] at h
          simp only [Bool.false_eq_true, if_false, ite_false] at h
          cases ht : outermostScopeWith (freeVarsOfNode (.call c args)) ctx.env with
          | none => rw [ht] at h; simp at h
          | some target =>
            rw [ht] at h
            simp only [] at h
            cases hcur : (some target == currentFnOrProg ctx.env) with
            | true => rw [hcur] at h; simp at h
            | false =>
              rw [hcur] at h
              simp only [Bool.false_eq_true, if_false, ite_false] at h
              cases hdep : dependsOnLocalVar ctx.env (freeVarsOfNode (.call c args)) with
              | true => rw [hdep] at h; simp at h
              | false =>
                rw [hdep] at h
                simp only [Bool.false_eq_true, if_false, ite_false] at h
                cases hmk : makeUniqueFbName ctx.env ctx.rsv target
                    (deriveBaseFromCall c args) fuel with
                | none => rw [hmk] at h; simp at h
                | some nm =>
                  rw [hmk] at h
                  simp only [Option.some.injEq] at h
                  subst h
                  refine ⟨rfl, rfl, rfl, rfl, rfl, rfl, rfl, rfl, rfl, rfl, rfl,
                    hcur, ?_⟩
                  simpa [baseOfCall] using hmk
  | ident n => simp [callStep] at h
  | lit b v => simp [callStep] at h
  | arrowE ps b => simp [callStep] at h
  | arrowB ps b => simp [callStep] at h
  | funcE ps b => simp [callStep] at h
  | thisE => simp [callStep] at h
  | superE => simp [callStep] at h
  | newTarget => simp [callStep] at h
  | member o p => simp [callStep] at h
  | memberC o p => simp [callStep] at h
  | bin l r => simp [callStep] at h

theorem declStep_some_facts {ctx : Ctx} {dk : DKind} {idName : String} {init : Expr}
    {refs : Option Nat} {fuel : Nat} {out : StepOut}
    (h : declStep ctx (.varDecl dk idName (some init)) refs fuel = some out) :
    out.cloned = init ∧
    out.producer = .arrowE [] out.cloned ∧
    out.helperCall = .call (.ident ctx.helperName) [out.producer] ∧
    out.fbDecl = .varDecl .constD out.fbName (some out.helperCall) ∧
    out.fbCall = .call (.ident out.fbName) [] ∧
    out.rsvAfter = reserveAt ctx.rsv out.target out.fbName ∧
    declCandidate ctx (.varDecl dk idName (some init)) = true ∧
    isPureEnoughInit init = true ∧
    containsFrameSensitiveThings init = false ∧
    (∃ r, refs = some r ∧ 1 ≤ r) ∧
    (freeVarsOfDecl init ≠ [] ∨ isLit init = true) ∧
    outermostScopeWith (freeVarsOfDecl init) ctx.env = some out.target ∧
    (some out.target == currentFnOrProg ctx.env) = false ∧
    makeUniqueFbName ctx.env ctx.rsv out.target idName fuel = some out.fbName := by
  simp only [declStep] at h
  cases hcand : declCandidate ctx (.varDecl dk idName (some init)) with
  | false => rw [hcand] at h; simp at h
  | true =>
    rw [hcand] at h
    simp only [Bool.not_true, Bool.false_eq_true, if_false, ite_false] at h
    cases hpure : isPureEnoughInit init with
    | false => rw [hpure] at h; simp at h
    | true =>
      rw [hpure] at h
      simp only [Bool.not_true, Bool.false_eq_true, if_false, ite_false] at h
      cases hfs : containsFrameSensitiveThings init with
      | true => rw [hfs] at h; simp at h
      | false =>
        rw [hfs] at h
        simp only [Bool.false_eq_true, if_false, ite_false] at h
        cases refs with
        | none => simp at h
        | some r =>
          simp only [] at h
          by_cases hr : r < 1
          · rw [if_pos hr] at h; simp at h
          · rw [if_neg hr] at h
            cases hlv : (freeVarsOfDecl init).isEmpty && !isLit init with
            | true => rw [hlv] at h; simp at h
            | false =>
              rw [hlv] at h
              simp only [Bool.false_eq_true, if_false, ite_false] at h
              cases ht : outermostScopeWith (freeVarsOfDecl init) ctx.env with
              | none => rw [ht] at h; simp at h
              | some target =>
                rw [ht] at h
                simp only [] at h
                cases hcur : (some target == currentFnOrProg ctx.env) with
                | true => rw [hcur] at h; simp at h
                | false =>
                  rw [hcur] at h
                  simp only [Bool.false_eq_true, if_false, ite_false] at h
                  cases hmk : makeUniqueFbName ctx.env ctx.rsv target idName fuel with
                  | none => rw [hmk] at h; simp at h
                  | some nm =>
                    rw [hmk] at h
                    simp only [Option.some.injEq] at h
                    subst h
                    refine ⟨rfl, rfl, rfl, rfl, rfl, rfl, rfl, rfl, rfl,
                      ⟨r, rfl, by omega⟩, ?_, rfl, hcur, hmk⟩
                    rcases Bool.and_eq_false_iff.mp hlv with hv | hv
                    · exact Or.inl (by
                        intro hnil
                        rw [hnil] at hv
                        simp at hv)
                    · exact Or.inr (by
                        cases hl : isLit init with
                        | true => rfl
                        | false => rw [hl] at hv; simp at hv)

theorem isNullaryCall_imp_contains {e : Expr} (h : isNullaryCall e = true) :
    exprContainsNullaryCall e = true := by
  cases e with
  | call c args =>
    cases args with
    | nil => simp [exprContainsNullaryCall, exprHasNullary, isNullaryCall]
    | cons a as => simp [isNullaryCall] at h
  | ident n => simp [isNullaryCall] at h
  | lit b v => simp [isNullaryCall] at h
  | arrowE ps b => simp [isNullaryCall] at h
  | arrowB ps b => simp [isNullaryCall] at h
  | funcE ps b => simp [isNullaryCall] at h
  | thisE => simp [isNullaryCall] at h
  | superE => simp [isNullaryCall] at h
  | newTarget => simp [isNullaryCall] at h
  | member o p => simp [isNullaryCall] at h
  | memberC o p => simp [isNullaryCall] at h
  | bin l r => simp [isNullaryCall] at h

theorem isFS_shape {x : Expr} (h : isFrameSensitiveNode x = true) :
    x = .thisE ∨ x = .superE ∨ x = .newTarget ∨ ∃ nn, x = .ident nn := by
  cases x with
  | ident nn => exact Or.inr (Or.inr (Or.inr ⟨nn, rfl⟩))
  | thisE => exact Or.inl rfl
  | superE => exact Or.inr (Or.inl rfl)
  | newTarget => exact Or.inr (Or.inr (Or.inl rfl))
  | lit b v => simp [isFrameSensitiveNode] at h
  | call c args => simp [isFrameSensitiveNode] at h
  | arrowE ps b => simp [isFrameSensitiveNode] at h
  | arrowB ps b => simp [isFrameSensitiveNode] at h
  | funcE ps b => simp [isFrameSensitiveNode] at h
  | member o p => simp [isFrameSensitiveNode] at h
  | memberC o p => simp [isFrameSensitiveNode] at h
  | bin l r => simp [isFrameSensitiveNode] at h

/-! ## The claims -/

/-- C2: for the injected runtime helper applied to a zero-argument producer,
modelling the returned accessor as the two-state object
{Pending(producer) | Cached(value)} behind one force operation: every one of
`n` accessor invocations returns the value produced by the first producer
call, the producer executes `min n 1` times (at most once; exactly once when
the accessor is invoked at least once), and the state is Cached exactly
after the first invocation. -/
theorem C2_accessor_memoizes_once {α σ : Type} (init : σ → α × σ) (s : σ) (n : Nat) :
    (invokeAccessor init n ⟨.pending, s, 0⟩).1 = List.replicate n (init s).1 ∧
    (invokeAccessor init n ⟨.pending, s, 0⟩).2.execs = min n 1 ∧
    (invokeAccessor init n ⟨.pending, s, 0⟩).2.st =
      (if n = 0 then .pending else .cached (init s).1) := by
  cases n with
  | zero => exact ⟨rfl, rfl, rfl⟩
  | succ m =>
    have hc := invokeAccessor_cached init (init s).1 (init s).2 1 m
    refine ⟨?_, ?_, ?_⟩
    · simp [invokeAccessor, forceAccessor, hc, List.replicate_succ]
    · simp only [invokeAccessor, forceAccessor, hc]
      omega
    · simp [invokeAccessor, forceAccessor, hc]

/-- C3: the purity analysis rejects any subtree containing, at any nesting
depth, a call expression with zero arguments; consequently no accepted
hoist (of either visitor) ever copies a subtree containing a nullary call,
and a nullary call itself is never the floated expression. -/
theorem C3_nullary_rejection :
    (∀ e, exprContainsNullaryCall e = true → isPureEnoughInit e = false) ∧
    (∀ (ctx : Ctx) (e : Expr) (fuel : Nat) (out : StepOut), callStep ctx e fuel = some out →
      isNullaryCall out.cloned = false ∧ exprContainsNullaryCall out.cloned = false) ∧
    (∀ (ctx : Ctx) (dk : DKind) (idName : String) (init : Expr) (refs : Option Nat)
      (fuel : Nat) (out : StepOut),
      declStep ctx (.varDecl dk idName (some init)) refs fuel = some out →
      exprContainsNullaryCall out.cloned = false) := by
  have contain_of_pure : ∀ e, isPureEnoughInit e = true → exprContainsNullaryCall e = false := by
    intro e hp
    rw [isPureEnoughInit] at hp
    cases hcn : exprContainsNullaryCall e with
    | false => rfl
    | true => rw [hcn] at hp; simp at hp
  refine ⟨?_, ?_, ?_⟩
  · intro e h
    rw [isPureEnoughInit, h]
    rfl
  · intro ctx e fuel out h
    obtain ⟨hcl, _, _, _, _, _, _, hpure, _⟩ := callStep_some_facts h
    have hno : exprContainsNullaryCall e = false := contain_of_pure e hpure
    refine ⟨?_, by rw [hcl]; exact hno⟩
    rw [hcl]
    cases hnc : isNullaryCall e with
    | false => rfl
    | true => rw [isNullaryCall_imp_contains hnc] at hno; simp at hno
  · intro ctx dk idName init refs fuel out h
    obtain ⟨hcl, _, _, _, _, _, _, hpure, _⟩ := declStep_some_facts h
    rw [hcl]
    exact contain_of_pure init hpure

/-- C3 witness: a concrete nullary-containing expression is rejected, and
the Scenario A hoist's copied subtree is nullary-free. -/
theorem C3_witness :
    isPureEnoughInit exNullary = false ∧
    (isNullaryCall outA.cloned = false ∧ exprContainsNullaryCall outA.cloned = false) :=
  ⟨C3_nullary_rejection.1 exNullary (by decide),
   C3_nullary_rejection.2.1 ctxA eA 10 outA (by rfl)⟩

/-- C7 counterexample: the collector reports `a` — the parameter of the
analyzed arrow, a name bound within the subtree itself — as a free
variable, contradicting the claim that names bound within the subtree are
not reported. -/
theorem C7_cex_bound_name_reported :
    freeVarsOfNode exC7 = ["a", "b"] ∧
    exC7 = Expr.arrowE ["a"] (.bin (.ident "a") (.ident "b")) :=
  ⟨by decide, rfl⟩

/-- C7 (amended): `freeVarsOfNode` returns exactly the names with a
reference-position identifier occurrence strictly inside the analyzed node
(the node itself is never examined), with no exclusion of names bound
within the subtree; for a declaration's initializer the declared name is
not excluded. -/
theorem C7_free_vars_characterization (e : Expr) (n : String) :
    n ∈ freeVarsOfNode e ↔ (Expr.ident n ∈ allExprsE e ∧ e ≠ .ident n) := by
  cases e with
  | ident m =>
    constructor
    · intro h
      simp [freeVarsOfNode] at h
    · rintro ⟨h1, h2⟩
      have h3 : Expr.ident n = Expr.ident m := by simpa [allExprsE] using h1
      exact absurd h3.symm h2
  | lit b v => simp [freeVarsOfNode, allExprsE]
  | thisE => simp [freeVarsOfNode, allExprsE]
  | superE => simp [freeVarsOfNode, allExprsE]
  | newTarget => simp [freeVarsOfNode, allExprsE]
  | call c args =>
    rw [freeVarsOfNode, mem_dedupKeepFirst]
    simp only [List.mem_append, allExprsE, List.mem_cons]
    rw [mem_identsE_iff, mem_identsLE_iff]
    constructor
    · rintro (h | h)
      · exact ⟨Or.inr (Or.inl h), fun hh => Expr.noConfusion hh⟩
      · exact ⟨Or.inr (Or.inr h), fun hh => Expr.noConfusion hh⟩
    · rintro ⟨h | h | h, hne⟩
      · exact absurd h.symm (fun hh => Expr.noConfusion hh)
      · exact Or.inl h
      · exact Or.inr h
  | arrowE ps b =>
    rw [freeVarsOfNode, mem_dedupKeepFirst]
    simp only [allExprsE, List.mem_cons]
    rw [mem_identsE_iff]
    constructor
    · intro h
      exact ⟨Or.inr h, fun hh => Expr.noConfusion hh⟩
    · rintro ⟨h | h, hne⟩
      · exact absurd h.symm (fun hh => Expr.noConfusion hh)
      · exact h
  | arrowB ps b =>
    rw [freeVarsOfNode, mem_dedupKeepFirst]
    simp only [allExprsE, List.mem_cons]
    rw [mem_identsLS_iff]
    constructor
    · intro h
      exact ⟨Or.inr h, fun hh => Expr.noConfusion hh⟩
    · rintro ⟨h | h, hne⟩
      · exact absurd h.symm (fun hh => Expr.noConfusion hh)
      · exact h
  | funcE ps b =>
    rw [freeVarsOfNode, mem_dedupKeepFirst]
    simp only [allExprsE, List.mem_cons]
    rw [mem_identsLS_iff]
    constructor
    · intro h
      exact ⟨Or.inr h, fun hh => Expr.noConfusion hh⟩
    · rintro ⟨h | h, hne⟩
      · exact absurd h.symm (fun hh => Expr.noConfusion hh)
      · exact h
  | member o p =>
    rw [freeVarsOfNode, mem_dedupKeepFirst]
    simp only [allExprsE, List.mem_cons]
    rw [mem_identsE_iff]
    constructor
    · intro h
      exact ⟨Or.inr h, fun hh => Expr.noConfusion hh⟩
    · rintro ⟨h | h, hne⟩
      · exact absurd h.symm (fun hh => Expr.noConfusion hh)
      · exact h
  | memberC o p =>
    rw [freeVarsOfNode, mem_dedupKeepFirst]
    simp only [List.mem_append, allExprsE, List.mem_cons]
    rw [mem_identsE_iff, mem_identsE_iff]
    constructor
    · rintro (h | h)
      · exact ⟨Or.inr (Or.inl h), fun hh => Expr.noConfusion hh⟩
      · exact ⟨Or.inr (Or.inr h), fun hh => Expr.noConfusion hh⟩
    · rintro ⟨h | h | h, hne⟩
      · exact absurd h.symm (fun hh => Expr.noConfusion hh)
      · exact Or.inl h
      · exact Or.inr h
  | bin l r =>
    rw [freeVarsOfNode, mem_dedupKeepFirst]
    simp only [List.mem_append, allExprsE, List.mem_cons]
    rw [mem_identsE_iff, mem_identsE_iff]
    constructor
    · rintro (h | h)
      · exact ⟨Or.inr (Or.inl h), fun hh => Expr.noConfusion hh⟩
      · exact ⟨Or.inr (Or.inr h), fun hh => Expr.noConfusion hh⟩
    · rintro ⟨h | h | h, hne⟩
      · exact absurd h.symm (fun hh => Expr.noConfusion hh)
      · exact Or.inl h
      · exact Or.inr h

/-- C7 witness: the characterization applied to the Scenario A expression —
`x` is reported free because it occurs in a reference position strictly
inside the call. -/
theorem C7_witness : "x" ∈ freeVarsOfNode eA :=
  (C7_free_vars_characterization eA "x").mpr
    ⟨by simp [eA, allExprsE, allExprsLE], fun hh => Expr.noConfusion hh⟩

/-- C8 counterexample: in `f(function () { return this.x; })` the
frame-sensitive reference occurs only inside a nested ordinary (non-arrow)
function, so the claim's nesting-aware walk (`fsNestE`) accepts the
subtree; but the code's walk flags it and makes the subtree ineligible. -/
theorem C8_cex_nested_ordinary_function :
    fsNestE exC8 = false ∧ containsFrameSensitiveThings exC8 = true := by decide

/-- C8 (amended): the frame-sensitivity check has no nesting awareness: it
flags a subtree exactly when a frame-sensitive node (`this`, referenced
`arguments`, `super`, `new.target`) occurs anywhere strictly inside it —
also when that occurrence lies inside a nested ordinary function. -/
theorem C8_frame_check_not_nesting_aware (e : Expr) :
    containsFrameSensitiveThings e = true ↔
      ∃ x, x ∈ allExprsE e ∧ isFrameSensitiveNode x = true ∧ x ≠ e := by
  have hne_of : ∀ (x : Expr), isFrameSensitiveNode x = true →
      ∀ c args ps (b : Expr) (bs : List Stmt) o (pe : Expr) l r (pn : String) (bl : Bool)
        (v : String),
      x ≠ .call c args ∧ x ≠ .arrowE ps b ∧ x ≠ .arrowB ps bs ∧ x ≠ .funcE ps bs ∧
        x ≠ .member o pn ∧ x ≠ .memberC o pe ∧ x ≠ .bin l r ∧ x ≠ .lit bl v := by
    intro x hx c args ps b bs o pe l r pn bl v
    rcases isFS_shape hx with rfl | rfl | rfl | ⟨nn, rfl⟩ <;>
      exact ⟨fun h => Expr.noConfusion h, fun h => Expr.noConfusion h,
        fun h => Expr.noConfusion h, fun h => Expr.noConfusion h,
        fun h => Expr.noConfusion h, fun h => Expr.noConfusion h,
        fun h => Expr.noConfusion h, fun h => Expr.noConfusion h⟩
  cases e with
  | ident m =>
    rw [containsFrameSensitiveThings]
    constructor
    · intro h; simp at h
    · rintro ⟨x, hx, hfs, hne⟩
      have : x = Expr.ident m := by simpa [allExprsE] using hx
      exact absurd this hne
  | lit b v =>
    rw [containsFrameSensitiveThings]
    constructor
    · intro h; simp at h
    · rintro ⟨x, hx, hfs, hne⟩
      have : x = Expr.lit b v := by simpa [allExprsE] using hx
      exact absurd this hne
  | thisE =>
    rw [containsFrameSensitiveThings]
    constructor
    · intro h; simp at h
    · rintro ⟨x, hx, hfs, hne⟩
      have : x = Expr.thisE := by simpa [allExprsE] using hx
      exact absurd this hne
  | superE =>
    rw [containsFrameSensitiveThings]
    constructor
    · intro h; simp at h
    · rintro ⟨x, hx, hfs, hne⟩
      have : x = Expr.superE := by simpa [allExprsE] using hx
      exact absurd this hne
  | newTarget =>
    rw [containsFrameSensitiveThings]
    constructor
    · intro h; simp at h
    · rintro ⟨x, hx, hfs, hne⟩
      have : x = Expr.newTarget := by simpa [allExprsE] using hx
      exact absurd this hne
  | call c args =>
    rw [containsFrameSensitiveThings]
    rw [Bool.or_eq_true, fsE_iff, fsListE_iff]
    constructor
    · rintro (⟨x, hx, hfs⟩ | ⟨x, hx, hfs⟩)
      · exact ⟨x, by simp [allExprsE, List.mem_cons, List.mem_append, hx],
          hfs, ((hne_of x hfs c args [] x [] x x x x "" true "").1)⟩
      · exact ⟨x, by simp [allExprsE, List.mem_cons, List.mem_append, hx],
          hfs, ((hne_of x hfs c args [] x [] x x x x "" true "").1)⟩
    · rintro ⟨x, hx, hfs, hne⟩
      simp only [allExprsE, List.mem_cons, List.mem_append] at hx
      rcases hx with rfl | hx | hx
      · exact absurd rfl hne
      · exact Or.inl ⟨x, hx, hfs⟩
      · exact Or.inr ⟨x, hx, hfs⟩
  | arrowE ps b =>
    rw [containsFrameSensitiveThings, fsE_iff]
    constructor
    · rintro ⟨x, hx, hfs⟩
      exact ⟨x, by simp [allExprsE, List.mem_cons, hx], hfs,
        ((hne_of x hfs x [] ps b [] x x x x "" true "").2.1)⟩
    · rintro ⟨x, hx, hfs, hne⟩
      simp only [allExprsE, List.mem_cons] at hx
      rcases hx with rfl | hx
      · exact absurd rfl hne
      · exact ⟨x, hx, hfs⟩
  | arrowB ps bs =>
    rw [containsFrameSensitiveThings, fsListS_iff]
    constructor
    · rintro ⟨x, hx, hfs⟩
      exact ⟨x, by simp [allExprsE, List.mem_cons, hx], hfs,
        ((hne_of x hfs x [] ps x bs x x x x "" true "").2.2.1)⟩
    · rintro ⟨x, hx, hfs, hne⟩
      simp only [allExprsE, List.mem_cons] at hx
      rcases hx with rfl | hx
      · exact absurd rfl hne
      · exact ⟨x, hx, hfs⟩
  | funcE ps bs =>
    rw [containsFrameSensitiveThings, fsListS_iff]
    constructor
    · rintro ⟨x, hx, hfs⟩
      exact ⟨x, by simp [allExprsE, List.mem_cons, hx], hfs,
        ((hne_of x hfs x [] ps x bs x x x x "" true "").2.2.2.1)⟩
    · rintro ⟨x, hx, hfs, hne⟩
      simp only [allExprsE, List.mem_cons] at hx
      rcases hx with rfl | hx
      · exact absurd rfl hne
      · exact ⟨x, hx, hfs⟩
  | member o pn =>
    rw [containsFrameSensitiveThings, fsE_iff]
    constructor
    · rintro ⟨x, hx, hfs⟩
      exact ⟨x, by simp [allExprsE, List.mem_cons, hx], hfs,
        ((hne_of x hfs x [] [] x [] o x x x pn true "").2.2.2.2.1)⟩
    · rintro ⟨x, hx, hfs, hne⟩
      simp only [allExprsE, List.mem_cons] at hx
      rcases hx with rfl | hx
      · exact absurd rfl hne
      · exact ⟨x, hx, hfs⟩
  | memberC o pe =>
    rw [containsFrameSensitiveThings]
    rw [Bool.or_eq_true, fsE_iff, fsE_iff]
    constructor
    · rintro (⟨x, hx, hfs⟩ | ⟨x, hx, hfs⟩)
      · exact ⟨x, by simp [allExprsE, List.mem_cons, List.mem_append, hx],
          hfs, ((hne_of x hfs x [] [] x [] o pe x x "" true "").2.2.2.2.2.1)⟩
      · exact ⟨x, by simp [allExprsE, List.mem_cons, List.mem_append, hx],
          hfs, ((hne_of x hfs x [] [] x [] o pe x x "" true "").2.2.2.2.2.1)⟩
    · rintro ⟨x, hx, hfs, hne⟩
      simp only [allExprsE, List.mem_cons, List.mem_append] at hx
      rcases hx with rfl | hx | hx
      · exact absurd rfl hne
      · exact Or.inl ⟨x, hx, hfs⟩
      · exact Or.inr ⟨x, hx, hfs⟩
  | bin l r =>
    rw [containsFrameSensitiveThings]
    rw [Bool.or_eq_true, fsE_iff, fsE_iff]
    constructor
    · rintro (⟨x, hx, hfs⟩ | ⟨x, hx, hfs⟩)
      · exact ⟨x, by simp [allExprsE, List.mem_cons, List.mem_append, hx],
          hfs, ((hne_of x hfs x [] [] x [] x x l r "" true "").2.2.2.2.2.2.1)⟩
      · exact ⟨x, by simp [allExprsE, List.mem_cons, List.mem_append, hx],
          hfs, ((hne_of x hfs x [] [] x [] x x l r "" true "").2.2.2.2.2.2.1)⟩
    · rintro ⟨x, hx, hfs, hne⟩
      simp only [allExprsE, List.mem_cons, List.mem_append] at hx
      rcases hx with rfl | hx | hx
      · exact absurd rfl hne
      · exact Or.inl ⟨x, hx, hfs⟩
      · exact Or.inr ⟨x, hx, hfs⟩

/-- C10: insertion-position selection.  An implicit-return arrow body is
first converted to an explicit block returning the original expression, and
the declaration then lands at its front; in general the container splits as
a leading run of import/directive anchors followed by the rest, and the
declaration is inserted exactly between the two (at the very front when the
leading run is empty). -/
theorem C10_insertion_layout :
    (∀ (ps : List String) (e : Expr) (decl : Stmt),
      hoistInto (.fnExpr ps e) decl = .fnBlock ps [decl, .ret (some e)]) ∧
    (∀ (isProg : Bool) (body : List Stmt) (decl : Stmt),
      ∃ L R, body = L ++ R ∧
        (∀ s ∈ L, isHoistAnchor isProg s = true) ∧
        (∀ s, R.head? = some s → isHoistAnchor isProg s = false) ∧
        insertAfterPrologueAndImports isProg body decl = L ++ decl :: R) ∧
    (∀ body decl, hoistInto (.program body) decl =
      .program (insertAfterPrologueAndImports true body decl)) ∧
    (∀ ps body decl, hoistInto (.fnBlock ps body) decl =
      .fnBlock ps (insertAfterPrologueAndImports false body decl)) := by
  refine ⟨?_, ?_, ?_, ?_⟩
  · intro ps e decl
    rfl
  · intro isProg body decl
    refine ⟨body.takeWhile (isHoistAnchor isProg), body.dropWhile (isHoistAnchor isProg),
      (List.takeWhile_append_dropWhile _ _).symm, ?_, ?_, ?_⟩
    · intro s hs
      exact List.mem_takeWhile_imp hs
    · intro s hs
      exact head?_dropWhile_false _ _ _ hs
    · rw [insertAfterPrologueAndImports]
      cases hk : (body.takeWhile (isHoistAnchor isProg)).length with
      | zero =>
        have hL : body.takeWhile (isHoistAnchor isProg) = [] := List.length_eq_zero.mp hk
        have hR : body.dropWhile (isHoistAnchor isProg) = body := by
          have := List.takeWhile_append_dropWhile (isHoistAnchor isProg) body
          rwa [hL, List.nil_append] at this
        rw [hL, hR, List.nil_append]
      | succ m =>
        have h1 := take_length_takeWhile (isHoistAnchor isProg) body
        have h2 := drop_length_takeWhile (isHoistAnchor isProg) body
        rw [hk] at h1 h2
        show List.take (m + 1) body ++ decl :: List.drop (m + 1) body = _
        rw [h1, h2]
  · intro body decl
    rfl
  · intro ps body decl
    rfl

/-- C10 witness: the implicit-return conversion applied concretely. -/
theorem C10_witness :
    hoistInto (.fnExpr ["x"] (.ident "y")) (.varDecl .constD "a__fb" none)
      = .fnBlock ["x"] [.varDecl .constD "a__fb" none, .ret (some (.ident "y"))] :=
  C10_insertion_layout.1 ["x"] (.ident "y") (.varDecl .constD "a__fb" none)

/-- C4 (amended): the nodes directly created by an accepted hoist are never
classified as candidates again: the replacement accessor call, the copied
expression's root and the hoisted declaration are guarded by their
generated marks, the helper call by the helper-name guard, every call at a
position whose enclosing nodes include the helper call by the
inside-helper guard, and the producer is of no candidate shape.  (The
guarantee does not extend to statements strictly inside the copied
subtree; see the counterexample.) -/
theorem C4_generated_nodes_guarded (ctx : Ctx) (e : Expr) (dk : DKind) (idName : String)
    (init : Expr) (refs : Option Nat) (fuel : Nat) (out : StepOut)
    (h : callStep ctx e fuel = some out ∨
      declStep ctx (.varDecl dk idName (some init)) refs fuel = some out) :
    (∀ ctx2 : Ctx, ctx2.genE out.fbCall = true → callCandidate ctx2 out.fbCall = false) ∧
    (∀ ctx2 : Ctx, ctx2.genE out.cloned = true → callCandidate ctx2 out.cloned = false) ∧
    (∀ ctx2 : Ctx, ctx2.helperName = ctx.helperName →
      callCandidate ctx2 out.helperCall = false) ∧
    (∀ (ctx2 : Ctx) (x : Expr), ctx2.helperName = ctx.helperName →
      out.helperCall ∈ ctx2.ancestors → callCandidate ctx2 x = false) ∧
    (∀ ctx2 : Ctx, ctx2.genS out.fbDecl = true → declCandidate ctx2 out.fbDecl = false) ∧
    (∀ ctx2 : Ctx, callCandidate ctx2 out.producer = false) := by
  have shape : out.producer = .arrowE [] out.cloned ∧
      out.helperCall = .call (.ident ctx.helperName) [out.producer] ∧
      out.fbDecl = .varDecl .constD out.fbName (some out.helperCall) ∧
      out.fbCall = .call (.ident out.fbName) [] := by
    rcases h with h | h
    · obtain ⟨_, h2, h3, h4, h5, _⟩ := callStep_some_facts h
      exact ⟨h2, h3, h4, h5⟩
    · obtain ⟨_, h2, h3, h4, h5, _⟩ := declStep_some_facts h
      exact ⟨h2, h3, h4, h5⟩
  obtain ⟨hprod, hhelp, hdecl, hcall⟩ := shape
  refine ⟨?_, ?_, ?_, ?_, ?_, ?_⟩
  · intro ctx2 hg
    rw [hcall] at hg ⊢
    simp [callCandidate, hg]
  · intro ctx2 hg
    cases hcc : out.cloned with
    | call c args =>
      rw [hcc] at hg
      simp [callCandidate, hg]
    | ident n => rfl
    | lit b v => rfl
    | arrowE ps b => rfl
    | arrowB ps b => rfl
    | funcE ps b => rfl
    | thisE => rfl
    | superE => rfl
    | newTarget => rfl
    | member o p => rfl
    | memberC o p => rfl
    | bin l r => rfl
  · intro ctx2 hh
    rw [hhelp]
    simp [callCandidate, isHelperCallee, hh]
  · intro ctx2 x hh hmem
    have hin : isInFloatedBinding ctx2.helperName ctx2.ancestors = true := by
      rw [isInFloatedBinding, List.any_eq_true]
      refine ⟨out.helperCall, hmem, ?_⟩
      rw [hhelp]
      simp [isHelperCallee, hh]
    cases x with
    | call c args => simp [callCandidate, hin]
    | ident n => rfl
    | lit b v => rfl
    | arrowE ps b => rfl
    | arrowB ps b => rfl
    | funcE ps b => rfl
    | thisE => rfl
    | superE => rfl
    | newTarget => rfl
    | member o p => rfl
    | memberC o p => rfl
    | bin l r => rfl
  · intro ctx2 hg
    rw [hdecl] at hg ⊢
    simp [declCandidate, hg]
  · intro ctx2
    rw [hprod]
    rfl

/-- C4 counterexample: the hoist of `e4` succeeds, the copied subtree
contains the declarator `d4` (a node freshly created by the deep copy, and
re-queued by the host when the hoisted declaration is inserted), the
created declaration is marked generated — yet `d4` passes every
classification guard of the `VariableDeclarator` visitor and is analyzed
as a declaration candidate within the same run. -/
theorem C4_cex_copied_declarator_reclassified :
    callStep ctx4 e4 10 = some out4 ∧
    (allStmtsE out4.cloned)[0]? = some d4 ∧
    genS4 out4.fbDecl = true ∧
    declCandidate ctx4g d4 = true :=
  ⟨rfl, rfl, by decide, by decide⟩

/-- C4 witness: the guards applied to the Scenario A hoist's created nodes
under a context marking them generated. -/
theorem C4_witness :
    callCandidate ctxAgen outA.fbCall = false ∧
    declCandidate ctxAgen outA.fbDecl = false :=
  ⟨(C4_generated_nodes_guarded ctxA eA .constD "w" (.ident "x") none 10 outA
      (Or.inl (by rfl))).1 ctxAgen (by decide),
   (C4_generated_nodes_guarded ctxA eA .constD "w" (.ident "x") none 10 outA
      (Or.inl (by rfl))).2.2.2.2.1 ctxAgen (by decide)⟩

/-- C6 counterexample: with the unresolvable name `z`, the resolver returns
the current enclosing function scope (index 0) — not the `null` of its
stated contract. -/
theorem C6_cex_returns_current_scope :
    envC6.resolvable "z" = false ∧ outermostScopeWith ["z"] envC6 = some 0 := by decide

/-- C6 (amended): when the free-variable set contains a name resolvable
neither as an own binding nor as ambient/global anywhere on the chain, the
resolver returns the current enclosing function scope (or the program
scope) rather than null; the driver's target-equals-current check then
leaves the candidate untouched — neither visitor produces a hoist for
it. -/
theorem C6_unresolvable_leaves_untouched (env : Env) (names : List String)
    (hwf : env.wf = true) (hne : names ≠ [])
    (hun : names.all env.resolvable = false) :
    (outermostScopeWith names env = currentFnOrProg env ∧
      ∃ cur, currentFnOrProg env = some cur) ∧
    (∀ (ctx : Ctx) (e : Expr) (fuel : Nat), ctx.env = env → freeVarsOfNode e = names →
      callStep ctx e fuel = none) ∧
    (∀ (ctx : Ctx) (dk : DKind) (idName : String) (init : Expr) (refs : Option Nat)
      (fuel : Nat), ctx.env = env → freeVarsOfDecl init = names →
      declStep ctx (.varDecl dk idName (some init)) refs fuel = none) := by
  obtain ⟨cur, hcur⟩ := currentFnOrProg_wf hwf
  have hempty : names.isEmpty = false := by
    cases names with
    | nil => exact absurd rfl hne
    | cons a as => rfl
  have hres : outermostScopeWith names env = some cur := by
    simp only [outermostScopeWith, hempty, Bool.false_eq_true, if_false, hcur, hun]
  refine ⟨⟨by rw [hres, hcur], cur, hcur⟩, ?_, ?_⟩
  · intro ctx e fuel hctx hfv
    cases e with
    | call c args =>
      simp only [callStep]
      cases hcand : callCandidate ctx (.call c args) with
      | false => simp
      | true =>
        simp only [Bool.not_true, Bool.false_eq_true, if_false]
        cases hpure : isPureEnoughInit (.call c args) with
        | false => simp
        | true =>
          simp only [Bool.not_true, Bool.false_eq_true, if_false]
          cases hfs : containsFrameSensitiveThings (.call c args) with
          | true => simp
          | false =>
            simp only [Bool.false_eq_true, if_false]
            rw [hfv, hctx, hres, hcur]
            simp
    | ident n => rfl
    | lit b v => rfl
    | arrowE ps b => rfl
    | arrowB ps b => rfl
    | funcE ps b => rfl
    | thisE => rfl
    | superE => rfl
    | newTarget => rfl
    | member o p => rfl
    | memberC o p => rfl
    | bin l r => rfl
  · intro ctx dk idName init refs fuel hctx hfv
    simp only [declStep]
    cases hcand : declCandidate ctx (.varDecl dk idName (some init)) with
    | false => simp
    | true =>
      simp only [Bool.not_true, Bool.false_eq_true, if_false]
      cases hpure : isPureEnoughInit init with
      | false => simp
      | true =>
        simp only [Bool.not_true, Bool.false_eq_true, if_false]
        cases hfs : containsFrameSensitiveThings init with
        | true => simp
        | false =>
          simp only [Bool.false_eq_true, if_false]
          cases refs with
          | none => rfl
          | some r =>
            simp only []
            by_cases hr : r < 1
            · rw [if_pos hr]
            · rw [if_neg hr]
              cases hlv : (freeVarsOfDecl init).isEmpty && !isLit init with
              | true => simp
              | false =>
                simp only [Bool.false_eq_true, if_false]
                rw [hfv, hctx, hres, hcur]
                simp

/-- C6 witness: the amended behavior at the concrete unresolvable
candidate `f(z)`. -/
theorem C6_witness : callStep ctxC6 eC6 10 = none :=
  (C6_unresolvable_leaves_untouched envC6 ["f", "z"] (by decide) (by decide)
    (by decide)).2.1 ctxC6 eC6 10 rfl (by decide)

/-- The test the `CallExpression` visitor applies per free variable equals
the code-side predicate `resolvesToVarLetConst`. -/
theorem dependsOnLocalVar_eq_any (env : Env) (fvs : List String) :
    dependsOnLocalVar env fvs = fvs.any (resolvesToVarLetConst env) := by
  rw [dependsOnLocalVar]
  congr 1
  funext n
  rw [resolvesToVarLetConst]
  cases env.getBinding 0 n with
  | none => rfl
  | some bk =>
    obtain ⟨b, k⟩ := bk
    cases k <;> rfl

/-- C9 (amended): the only restriction the driver adds beyond purity, scope
resolution and the target-differs check is, for bare call-expression
candidates, that no free variable resolves (from the use-site) to a
non-parameter `var`/`let`/`const` binding — owned by any scope whatsoever,
not merely by the current enclosing function; declaration candidates are
instead subject to two further restrictions of their own: the declared
binding must be referenced at least once, and an empty free-variable set is
accepted only for a literal initializer. -/
theorem C9_driver_extra_restrictions :
    (∀ (ctx : Ctx) (e : Expr) (fuel : Nat) (out : StepOut), callStep ctx e fuel = some out →
      ∀ n ∈ freeVarsOfNode e, resolvesToVarLetConst ctx.env n = false) ∧
    (∀ (ctx : Ctx) (e : Expr) (fuel : Nat), callCandidate ctx e = true →
      isPureEnoughInit e = true → containsFrameSensitiveThings e = false →
      (∃ t, outermostScopeWith (freeVarsOfNode e) ctx.env = some t ∧
        (some t == currentFnOrProg ctx.env) = false ∧
        (makeUniqueFbName ctx.env ctx.rsv t (baseOfCall e) fuel).isSome = true) →
      (∀ n ∈ freeVarsOfNode e, resolvesToVarLetConst ctx.env n = false) →
      (callStep ctx e fuel).isSome = true) ∧
    (∀ (ctx : Ctx) (dk : DKind) (idName : String) (init : Expr) (refs : Option Nat)
      (fuel : Nat) (out : StepOut),
      declStep ctx (.varDecl dk idName (some init)) refs fuel = some out →
      (∃ r, refs = some r ∧ 1 ≤ r) ∧ (freeVarsOfDecl init ≠ [] ∨ isLit init = true)) ∧
    (∀ (ctx : Ctx) (dk : DKind) (idName : String) (init : Expr) (r : Nat) (fuel : Nat),
      declCandidate ctx (.varDecl dk idName (some init)) = true →
      isPureEnoughInit init = true → containsFrameSensitiveThings init = false →
      1 ≤ r → (freeVarsOfDecl init ≠ [] ∨ isLit init = true) →
      (∃ t, outermostScopeWith (freeVarsOfDecl init) ctx.env = some t ∧
        (some t == currentFnOrProg ctx.env) = false ∧
        (makeUniqueFbName ctx.env ctx.rsv t idName fuel).isSome = true) →
      (declStep ctx (.varDecl dk idName (some init)) (some r) fuel).isSome = true) := by
  refine ⟨?_, ?_, ?_, ?_⟩
  · intro ctx e fuel out h n hn
    obtain ⟨_, _, _, _, _, _, _, _, _, hdep, _⟩ := callStep_some_facts h
    rw [dependsOnLocalVar_eq_any] at hdep
    cases hr : resolvesToVarLetConst ctx.env n with
    | false => rfl
    | true =>
      have : (freeVarsOfNode e).any (resolvesToVarLetConst ctx.env) = true :=
        List.any_eq_true.mpr ⟨n, hn, hr⟩
      rw [this] at hdep
      simp at hdep
  · intro ctx e fuel hcand hpure hfs hres hnone
    obtain ⟨t, ht, hne, hmk⟩ := hres
    cases e with
    | call c args =>
      have hdep : dependsOnLocalVar ctx.env (freeVarsOfNode (.call c args)) = false := by
        rw [dependsOnLocalVar_eq_any]
        cases hany : (freeVarsOfNode (.call c args)).any (resolvesToVarLetConst ctx.env) with
        | false => rfl
        | true =>
          obtain ⟨n, hn, hr⟩ := List.any_eq_true.mp hany
          rw [hnone n hn] at hr
          simp at hr
      obtain ⟨nm, hnm⟩ := Option.isSome_iff_exists.mp hmk
      simp only [callStep, hcand, Bool.not_true, Bool.false_eq_true, if_false, hpure, hfs,
        ht, hne, hdep]
      rw [show baseOfCall (Expr.call c args) = deriveBaseFromCall c args from rfl] at hnm
      rw [hnm]
      rfl
    | ident n => simp [callCandidate] at hcand
    | lit b v => simp [callCandidate] at hcand
    | arrowE ps b => simp [callCandidate] at hcand
    | arrowB ps b => simp [callCandidate] at hcand
    | funcE ps b => simp [callCandidate] at hcand
    | thisE => simp [callCandidate] at hcand
    | superE => simp [callCandidate] at hcand
    | newTarget => simp [callCandidate] at hcand
    | member o p => simp [callCandidate] at hcand
    | memberC o p => simp [callCandidate] at hcand
    | bin l r => simp [callCandidate] at hcand
  · intro ctx dk idName init refs fuel out h
    obtain ⟨_, _, _, _, _, _, _, _, _, hrefs, hlit, _⟩ := declStep_some_facts h
    exact ⟨hrefs, hlit⟩
  · intro ctx dk idName init r fuel hcand hpure hfs hr hlit hres
    obtain ⟨t, ht, hne, hmk⟩ := hres
    obtain ⟨nm, hnm⟩ := Option.isSome_iff_exists.mp hmk
    have hlv : ((freeVarsOfDecl init).isEmpty && !isLit init) = false := by
      rcases hlit with hv | hv
      · have : (freeVarsOfDecl init).isEmpty = false := by
          cases hfv : freeVarsOfDecl init with
          | nil => exact absurd hfv hv
          | cons a as => rfl
        simp [this]
      · simp [hv]
    have hr' : ¬ r < 1 := by omega
    simp only [declStep, hcand, Bool.not_true, Bool.false_eq_true, if_false, hpure, hfs,
      if_neg hr', hlv, ht, hne, hnm]
    rfl

/-- C9 counterexample: `f(g)` passes purity, frame-sensitivity, scope
resolution (target = program scope ≠ current scope), and none of its free
variables resolves to a local binding of the current enclosing function —
`g` is a program-level `const` — yet the driver refuses the hoist, because
its actual test rejects `var`/`let`/`const` bindings of any scope. -/
theorem C9_cex_outer_const_blocks_call_hoist :
    callCandidate ctx9 e9 = true ∧
    isPureEnoughInit e9 = true ∧
    containsFrameSensitiveThings e9 = false ∧
    outermostScopeWith (freeVarsOfNode e9) env9 = some 1 ∧
    currentFnOrProg env9 = some 0 ∧
    (∀ n ∈ freeVarsOfNode e9, resolvesToLocalOfCurrentFn env9 n = false) ∧
    callStep ctx9 e9 10 = none :=
  ⟨by decide, by decide, by decide, by decide, by decide, by decide, rfl⟩

/-- C9 witness: the restriction holds for the accepted Scenario A hoist. -/
theorem C9_witness :
    ∀ n ∈ freeVarsOfNode eA, resolvesToVarLetConst ctxA.env n = false :=
  C9_driver_extra_restrictions.1 ctxA eA 10 outA (by rfl)

theorem takenName_iff (env : Env) (rsv : List (List String)) (t : Nat) (n : String) :
    takenName env rsv t n = true ↔ CollidesName env rsv t n := by
  rw [takenName, CollidesName, Bool.or_eq_true, List.any_eq_true, List.any_eq_true]
  constructor
  · rintro (⟨j, hj, hb⟩ | ⟨u, hu, hb⟩)
    · rw [List.mem_range] at hj
      rw [Bool.and_eq_true, decide_eq_true_eq] at hb
      obtain ⟨hle, hb⟩ := hb
      rw [Bool.or_eq_true, Bool.or_eq_true] at hb
      refine Or.inl ⟨j, hle, hj, ?_⟩
      rcases hb with (hb | hb) | hb
      · exact Or.inl (List.elem_iff.mp hb)
      · exact Or.inr (Or.inl hb)
      · exact Or.inr (Or.inr hb)
    · rw [List.mem_range] at hu
      rw [Bool.or_eq_true] at hb
      refine Or.inr ⟨u, hu, ?_⟩
      rcases hb with hb | hb
      · exact Or.inl (List.elem_iff.mp hb)
      · exact Or.inr hb
  · rintro (⟨j, hle, hj, hb⟩ | ⟨u, hu, hb⟩)
    · refine Or.inl ⟨j, List.mem_range.mpr hj, ?_⟩
      rw [Bool.and_eq_true, decide_eq_true_eq]
      refine ⟨hle, ?_⟩
      rw [Bool.or_eq_true, Bool.or_eq_true]
      rcases hb with hb | hb | hb
      · exact Or.inl (Or.inl (List.elem_iff.mpr hb))
      · exact Or.inl (Or.inr hb)
      · exact Or.inr hb
    · refine Or.inr ⟨u, List.mem_range.mpr hu, ?_⟩
      rw [Bool.or_eq_true]
      rcases hb with hb | hb
      · exact Or.inl (List.elem_iff.mpr hb)
      · exact Or.inr hb

theorem findFbIndexed_some (taken : String → Bool) (base : String) :
    ∀ (fuel i : Nat) (nm : String), findFbIndexed taken base fuel i = some nm →
      ∃ m, i ≤ m ∧ nm = base ++ "__fb_" ++ toString m ∧ taken nm = false ∧
        ∀ j, i ≤ j → j < m → taken (base ++ "__fb_" ++ toString j) = true := by
  intro fuel
  induction fuel with
  | zero => intro i nm h; simp [findFbIndexed] at h
  | succ f ih =>
    intro i nm h
    rw [findFbIndexed] at h
    by_cases ht : taken (base ++ "__fb_" ++ toString i) = true
    · rw [if_pos ht] at h
      obtain ⟨m, hm1, hm2, hm3, hm4⟩ := ih (i + 1) nm h
      refine ⟨m, by omega, hm2, hm3, ?_⟩
      intro j hj1 hj2
      by_cases hji : j = i
      · rw [hji]; exact ht
      · exact hm4 j (by omega) hj2
    · rw [if_neg ht] at h
      obtain rfl : base ++ "__fb_" ++ toString i = nm := Option.some.inj h
      exact ⟨i, le_refl _, rfl, by simpa using ht, fun j hj1 hj2 => by omega⟩

/-- C5: the allocator tries `<base>__fb`, `<base>__fb_1`, `<base>__fb_2`, …
(for the sanitized base) in order, choosing the first candidate that does
not collide — collision meaning: a reserved, bound or ambient name at the
target scope or an ancestor of it, or an own binding or reservation in a
scope on the chain from the use-site up to, but excluding, the target
scope.  All earlier candidates collide, the chosen name collides with
nothing, and recording it via `reserveAt` (as both visitors do) registers
it at the target scope. -/
theorem C5_name_allocation (env : Env) (rsv : List (List String)) (t : Nat)
    (base0 : String) (fuel : Nat) (name : String)
    (h : makeUniqueFbName env rsv t base0 fuel = some name) :
    (∃ k, name = fbCandidate (sanitizeBase base0) k ∧
      (∀ j, j < k → takenName env rsv t (fbCandidate (sanitizeBase base0) j) = true)) ∧
    takenName env rsv t name = false ∧
    ¬ CollidesName env rsv t name ∧
    (t < rsv.length → name ∈ getRsv (reserveAt rsv t name) t) := by
  have hreserve : t < rsv.length → name ∈ getRsv (reserveAt rsv t name) t := by
    intro hlen
    rw [reserveAt, getRsv]
    rw [List.getElem?_set_self (by omega)]
    exact List.mem_cons_self _ _
  rw [makeUniqueFbName] at h
  by_cases h0 : takenName env rsv t (sanitizeBase base0 ++ "__fb") = true
  · rw [if_neg (by simp [h0])] at h
    obtain ⟨m, hm1, hm2, hm3, hm4⟩ := findFbIndexed_some _ _ fuel 1 name h
    refine ⟨⟨m, ?_, ?_⟩, hm3, ?_, hreserve⟩
    · rw [hm2, fbCandidate, if_neg (by omega)]
    · intro j hj
      cases j with
      | zero =>
        rw [fbCandidate, if_pos rfl]
        exact h0
      | succ j' =>
        rw [fbCandidate, if_neg (by omega)]
        exact hm4 (j' + 1) (by omega) hj
    · intro hc
      have := (takenName_iff env rsv t name).mpr hc
      rw [hm3] at this
      simp at this
  · have h0' : takenName env rsv t (sanitizeBase base0 ++ "__fb") = false := by
      cases hx : takenName env rsv t (sanitizeBase base0 ++ "__fb") with
      | false => rfl
      | true => exact absurd hx h0
    rw [if_pos (by simp [h0'])] at h
    obtain rfl : sanitizeBase base0 ++ "__fb" = name := Option.some.inj h
    refine ⟨⟨0, by rw [fbCandidate, if_pos rfl], fun j hj => by omega⟩, h0', ?_, hreserve⟩
    intro hc
    have := (takenName_iff env rsv t _).mpr hc
    rw [h0'] at this
    simp at this

/-- C5 witness: with `add_y__fb` already reserved at the target scope, the
allocator skips it and chooses `add_y__fb_1`. -/
theorem C5_witness :
    ∃ k, "add_y__fb_1" = fbCandidate (sanitizeBase "add_y") k ∧
      (∀ j, j < k → takenName envA [[], ["add_y__fb"], [], []] 1
        (fbCandidate (sanitizeBase "add_y") j) = true) :=
  (C5_name_allocation envA [[], ["add_y__fb"], [], []] 1 "add_y" 10 "add_y__fb_1"
    (by rfl)).1

theorem getBinding_isSome_of_own {env : Env} {j : Nat} {s : Scope} {n : String}
    (hj : env.chain[j]? = some s) (hn : s.ownNames.contains n = true) :
    ∃ bk, env.getBinding 0 n = some bk := by
  rw [Env.getBinding]
  have hsome : (env.firstFrom (fun s => s.ownNames.contains n) 0).isSome = true :=
    firstFrom_isSome env _ 0 j s hj (Nat.zero_le _) hn
  cases hf : env.firstFrom (fun s => s.ownNames.contains n) 0 with
  | none => rw [hf] at hsome; simp at hsome
  | some j' =>
    obtain ⟨_, _, s', h3, h4⟩ := firstFrom_some env _ 0 j' hf
    simp only []
    rw [h3]
    simp only []
    have hfind : (s'.own.find? (fun q => q.1 == n)).isSome := by
      rw [List.find?_isSome]
      have hmem : n ∈ s'.ownNames := List.elem_iff.mp h4
      rw [Scope.ownNames] at hmem
      obtain ⟨q, hq, hqn⟩ := List.mem_map.mp hmem
      exact ⟨q, hq, by simp [hqn]⟩
    cases hq : s'.own.find? (fun q => q.1 == n) with
    | none => rw [hq] at hfind; simp at hfind
    | some q => exact ⟨(j', q.2), rfl⟩

theorem acceptWiden_iff {env : Env} (hwf : env.wf = true) (names : List String) (p : Nat) :
    names.all (nameOkAt env p) = true ↔ AcceptWiden env names p := by
  rw [List.all_eq_true, AcceptWiden]
  constructor
  · intro h n hn
    have hok := h n hn
    rw [nameOkAt] at hok
    cases hb : env.getBinding 0 n with
    | none =>
      rw [hb] at hok
      exact Or.inr (Or.inr hok)
    | some bk =>
      obtain ⟨b, k⟩ := bk
      rw [hb] at hok
      rw [Bool.or_eq_true, Bool.or_eq_true] at hok
      rcases hok with (hok | hok) | hok
      · exact Or.inl ⟨b, k, rfl, by simpa using hok⟩
      · cases hp : env.chain[p]? with
        | none => rw [hp] at hok; simp at hok
        | some s =>
          rw [hp] at hok
          rw [Bool.and_eq_true] at hok
          exact Or.inr (Or.inl ⟨s, rfl, by simpa using hok.1, List.elem_iff.mp hok.2⟩)
      · exact Or.inr (Or.inr hok)
  · intro h n hn
    have hacc := h n hn
    rw [nameOkAt]
    rcases hacc with ⟨b, k, hb, hpb⟩ | ⟨s, hs, hk, hmem⟩ | hg
    · rw [hb]
      simp [hpb]
    · have hown : s.ownNames.contains n = true := by
        obtain ⟨_, _, _, hpar⟩ := wf_unpack hwf
        exact hpar s (List.getElem?_mem hs) n hmem
      obtain ⟨bk, hbk⟩ := getBinding_isSome_of_own hs hown
      obtain ⟨b, k⟩ := bk
      have hc : s.params.contains n = true := List.elem_iff.mpr hmem
      have hmid : (s.kind == SKind.fn && s.params.contains n) = true := by
        rw [hk, hc]
        rfl
      rw [hbk, hs]
      rw [Bool.or_eq_true, Bool.or_eq_true]
      exact Or.inl (Or.inr hmid)
    · cases hb : env.getBinding 0 n with
      | none => exact hg
      | some bk =>
        obtain ⟨b, k⟩ := bk
        simp [hg]

theorem widenLoop_spec {env : Env} (hwf : env.wf = true) (names : List String) :
    ∀ (fuel t : Nat), t < env.chain.length → env.chain.length ≤ fuel + t + 1 →
      Widens env names t (widenLoop env names fuel t) ∧
      NoMoreWiden env names (widenLoop env names fuel t) := by
  intro fuel
  induction fuel with
  | zero =>
    intro t ht hlen
    rw [widenLoop]
    refine ⟨Widens.refl t, ?_⟩
    intro p hp
    obtain ⟨h1, h2, _⟩ := firstFrom_some env _ (t + 1) p hp
    omega
  | succ f ih =>
    intro t ht hlen
    rw [widenLoop]
    by_cases hpar : t + 1 < env.chain.length
    · rw [if_pos hpar]
      cases hnext : nextFuncOrProg env (t + 1) with
      | none =>
        refine ⟨Widens.refl t, ?_⟩
        intro p hp
        rw [hnext] at hp
        exact Option.noConfusion hp
      | some p =>
        simp only []
        by_cases hacc : names.all (nameOkAt env p) = true
        · rw [if_pos hacc]
          obtain ⟨h1, h2, _⟩ := firstFrom_some env _ (t + 1) p hnext
          obtain ⟨hw, hnm⟩ := ih p h2 (by omega)
          exact ⟨Widens.step hnext ((acceptWiden_iff hwf names p).mp hacc) hw, hnm⟩
        · rw [if_neg hacc]
          refine ⟨Widens.refl t, ?_⟩
          intro p' hp'
          rw [hnext] at hp'
          obtain rfl : p = p' := Option.some.inj hp'
          intro hAcc
          exact hacc ((acceptWiden_iff hwf names p).mpr hAcc)
    · rw [if_neg hpar]
      refine ⟨Widens.refl t, ?_⟩
      intro p hp
      obtain ⟨h1, h2, _⟩ := firstFrom_some env _ (t + 1) p hp
      omega

theorem orElse_eq_some {a : Option Nat} {f : Unit → Option Nat} {c : Nat}
    (h : a.orElse f = some c) : a = some c ∨ (a = none ∧ f () = some c) := by
  cases a with
  | some x =>
    simp only [Option.orElse] at h
    exact Or.inl h
  | none =>
    simp only [Option.orElse] at h
    exact Or.inr ⟨rfl, h⟩

/-- C1: scope resolution.  With an empty free-variable set the resolver
returns the top-level program scope.  Otherwise, when every name is
resolvable from the use-site, it starts from the nearest enclosing function
scope (the program scope when there is none) and returns the scope reached
by repeatedly widening to the next enclosing function/program scope — each
widening accepted exactly when, for every free variable, the binding
resolved from the original use-site is owned by the prospective wider scope
or an ancestor of it, or the name is a parameter of the wider scope's
function, or the wider scope sees it as ambient/global — and from the
result no further widening is accepted: it is the last successful
candidate. -/
theorem C1_scope_resolution (env : Env) (names : List String) (hwf : env.wf = true) :
    (names = [] →
      outermostScopeWith names env = some (env.chain.length - 1) ∧
      ∃ s, env.chain[env.chain.length - 1]? = some s ∧ s.kind = .prog) ∧
    (names ≠ [] → (∀ n ∈ names, env.resolvable n = true) →
      ∃ cur r,
        (env.getFunctionParentS 0 = some cur ∨
          (env.getFunctionParentS 0 = none ∧ env.getProgramParent 0 = some cur)) ∧
        outermostScopeWith names env = some r ∧
        Widens env names cur r ∧ NoMoreWiden env names r) := by
  constructor
  · intro hn
    subst hn
    refine ⟨?_, wf_prog_last hwf⟩
    have h0 : (([] : List String).isEmpty = true) := rfl
    rw [outermostScopeWith, if_pos h0]
    exact getProgramParent_wf hwf (Nat.zero_le _)
  · intro hne hres
    have hempty : names.isEmpty = false := by
      cases names with
      | nil => exact absurd rfl hne
      | cons a as => rfl
    have hall : names.all env.resolvable = true :=
      List.all_eq_true.mpr (fun n hn => hres n hn)
    obtain ⟨cur, hcur⟩ := currentFnOrProg_wf hwf
    have hcurd : env.getFunctionParentS 0 = some cur ∨
        (env.getFunctionParentS 0 = none ∧ env.getProgramParent 0 = some cur) := by
      have h2 := hcur
      rw [currentFnOrProg] at h2
      exact orElse_eq_some h2
    have hcurlt : cur < env.chain.length := by
      rcases hcurd with h | ⟨_, h⟩
      · exact (firstFrom_some env _ 0 cur h).2.1
      · exact (firstFrom_some env _ 0 cur h).2.1
    have hres2 : outermostScopeWith names env =
        some (widenLoop env names env.chain.length cur) := by
      rw [outermostScopeWith]
      rw [if_neg (by rw [hempty]; exact fun hh => Bool.noConfusion hh)]
      rw [hcur]
      simp only []
      rw [if_pos hall]
    obtain ⟨hw, hnm⟩ := widenLoop_spec hwf names env.chain.length cur hcurlt (by omega)
    exact ⟨cur, widenLoop env names env.chain.length cur, hcurd, hres2, hw, hnm⟩

/-- C1 witness: the characterization applied to Scenario A — the resolver
accepts one widening (to the scope of `function (y)`) and refuses the
next. -/
theorem C1_witness :
    ∃ cur r,
      (envA.getFunctionParentS 0 = some cur ∨
        (envA.getFunctionParentS 0 = none ∧ envA.getProgramParent 0 = some cur)) ∧
      outermostScopeWith ["add", "x", "y"] envA = some r ∧
      Widens envA ["add", "x", "y"] cur r ∧ NoMoreWiden envA ["add", "x", "y"] r :=
  (C1_scope_resolution envA ["add", "x", "y"] (by decide)).2 (by decide) (by decide)

end FloatedBinding

